import Mathlib

/-!
Shallow embedding of drf_yasg/codecs.py: the document codec and validation
pipeline.  Ordered mappings are modelled as association lists (Python
OrderedDict / dict preserve insertion order), bytes as Lean strings (all
outputs are UTF-8 text), and Python exceptions as explicit result values.
-/

namespace Codecs

/-- The ordered document model: scalars, ordered sequences and ordered
mappings (insertion order is part of the value). -/
inductive Doc where
  | str (s : String)
  | int (n : Int)
  | bool (b : Bool)
  | null
  | arr (xs : List Doc)
  | obj (kvs : List (String × Doc))

mutual

/-- copy.deepcopy on the document tree (recursively rebuilds every node, so
the copy shares no mutable state with the original). -/
def deepcopy : Doc → Doc
  | .str s => .str s
  | .int n => .int n
  | .bool b => .bool b
  | .null => .null
  | .arr xs => .arr (deepcopyList xs)
  | .obj kvs => .obj (deepcopyPairs kvs)

/-- deepcopy of a list of documents. -/
def deepcopyList : List Doc → List Doc
  | [] => []
  | x :: xs => deepcopy x :: deepcopyList xs

/-- deepcopy of the entries of an ordered mapping. -/
def deepcopyPairs : List (String × Doc) → List (String × Doc)
  | [] => []
  | (k, v) :: kvs => (k, deepcopy v) :: deepcopyPairs kvs

end

end Codecs

namespace Codecs

/-- Outcome of calling a validator function on a spec: it either returns
normally, raises SwaggerValidationError, or raises ImportError (a missing
validation engine).  The `spec` component is the final state of the
(mutable) document object that was passed in, so a mutating validator is
represented by an outcome whose `spec` differs from the argument. -/
inductive VOutcome where
  | ok (spec : Doc)
  | invalid (msg : String) (spec : Doc)
  | importError (modName : String)

/-- A validator function, as stored in the VALIDATORS table. -/
def Validator : Type := Doc → VOutcome

/-- The state of the Python import system and of the two optional backing
validation engines.  An engine maps a spec to its final (possibly mutated)
state plus an optional validation-error message. -/
structure PyEnv where
  flexAvailable : Bool
  flexEngine : Doc → Doc × Option String
  ssvAvailable : Bool
  ssvEngine : Doc → Doc × Option String

/-- _validate_flex: the import of flex.core is attempted inside the
function body and ImportError is caught, in which case the function simply
returns; otherwise flex validation errors are re-raised as
SwaggerValidationError with the same message. -/
def _validate_flex (env : PyEnv) : Validator := fun spec =>
  if env.flexAvailable then
    match env.flexEngine spec with
    | (m, none) => .ok m
    | (m, some msg) => .invalid msg m
  else .ok spec

/-- _validate_swagger_spec_validator: the import of swagger_spec_validator
happens at call time and is NOT guarded by try/except ImportError, so a
missing engine raises ImportError out of the call; engine validation
errors are re-raised as SwaggerValidationError with the same message. -/
def _validate_swagger_spec_validator (env : PyEnv) : Validator := fun spec =>
  if env.ssvAvailable then
    match env.ssvEngine spec with
    | (m, none) => .ok m
    | (m, some msg) => .invalid msg m
  else .importError "swagger_spec_validator"

/-- VALIDATORS = {"flex": _validate_flex, "ssv": _validate_swagger_spec_validator} -/
def VALIDATORS (env : PyEnv) : List (String × Validator) :=
  [("flex", _validate_flex env), ("ssv", _validate_swagger_spec_validator env)]

/-- Python dict lookup VALIDATORS[name] (first matching key). -/
def lookupValidator (table : List (String × Validator)) (name : String) : Option Validator :=
  match table with
  | [] => none
  | (k, v) :: rest => if k = name then some v else lookupValidator rest name

/-- errors[validator] = str(e): Python dict assignment, which overwrites an
existing key in place and otherwise appends a new entry. -/
def updateAssoc (l : List (String × String)) (k : String) (v : String) :
    List (String × String) :=
  match l with
  | [] => [(k, v)]
  | (k1, v1) :: rest => if k1 = k then (k1, v) :: rest else (k1, v1) :: updateAssoc rest k v

/-- Result of the validator loop in _OpenAPICodec.encode. -/
inductive RunOut where
  | done (errors : List (String × String))
  | keyError (name : String)
  | importError (modName : String)
deriving DecidableEq

set_option linter.unusedVariables false

/-- The validator loop of _OpenAPICodec.encode: for each configured name,
look it up in VALIDATORS (an unknown name raises KeyError, which the
surrounding try does not catch) and call it on copy.deepcopy(spec); a
SwaggerValidationError is recorded in errors and the loop continues, while
any other exception (ImportError) propagates.  The mutated state of the
deep copy is discarded. -/
def runValidators (table : List (String × Validator)) (spec : Doc) :
    List String → List (String × String) → RunOut
  | [], errors => .done errors
  | name :: rest, errors =>
    match lookupValidator table name with
    | none => .keyError name
    | some v =>
      match v (deepcopy spec) with
      | .ok _ => runValidators table spec rest errors
      | .invalid msg _ => runValidators table spec rest (updateAssoc errors name msg)
      | .importError m => .importError m

/-- The Swagger domain object: all encode needs from it is as_odict(). -/
structure Swagger where
  as_odict : Doc

/-- _OpenAPICodec.generate_swagger_object. -/
def generate_swagger_object (swagger : Swagger) : Doc :=
  swagger.as_odict

/-- A codec instance: the configured validator names plus the
format-specific _dump_dict implementation of the concrete subclass. -/
structure Codec where
  validators : List String
  dump_dict : Doc → String

/-- coreapi.compat.force_bytes: utf-8 encoding of the text; bytes are
modelled as the string itself. -/
def force_bytes (s : String) : String := s

/-- Result of _OpenAPICodec.encode, with each Python exception kind as a
separate constructor.  validationError carries the message, the errors
dict and the spec attached to the SwaggerValidationError. -/
inductive EncodeResult where
  | ok (out : String)
  | validationError (msg : String) (errors : List (String × String)) (spec : Doc)
  | keyError (name : String)
  | importError (modName : String)

/-- Python repr escaping of one character inside a string literal quoted by
`q`. -/
def pyEscapeChar (q : Char) (c : Char) : String :=
  if c = '\\' then "\\\\"
  else if c = q then "\\" ++ String.singleton q
  else if c = '\n' then "\\n"
  else if c = '\r' then "\\r"
  else if c = '\t' then "\\t"
  else String.singleton c

/-- The single-quote character. -/
def squote : Char := '\''

/-- The double-quote character. -/
def dquote : Char := '"'

/-- Concatenation of a list of strings. -/
def strConcat : List String → String
  | [] => ""
  | s :: rest => s ++ strConcat rest

/-- Python repr of a str: single-quoted unless the string contains a
single quote but no double quote. -/
def pyStrRepr (s : String) : String :=
  let q :=
    if s.data.any (fun c => c == squote) && !(s.data.any (fun c => c == dquote)) then dquote
    else squote
  String.singleton q ++ strConcat (s.data.map (pyEscapeChar q)) ++ String.singleton q

/-- Strings whose characters survive Python repr unescaped. -/
def plainRepr (s : String) : Bool :=
  s.data.all (fun c =>
    !(c == squote || c == dquote || c == '\\' || c == '\n' || c == '\r' || c == '\t'))

/-- The comma-separated body of a Python dict repr. -/
def reprParts : List (String × String) → String
  | [] => ""
  | [p] => pyStrRepr p.1 ++ ": " ++ pyStrRepr p.2
  | p :: q :: rest => pyStrRepr p.1 ++ ": " ++ pyStrRepr p.2 ++ ", " ++ reprParts (q :: rest)

/-- Python str() of a dict of strings: "{'k': 'v', ...}" in insertion
order. -/
def pyDictRepr (entries : List (String × String)) : String :=
  "\x7b" ++ reprParts entries ++ "\x7d"

/-- _OpenAPICodec.encode: convert the document via
generate_swagger_object, run every configured validator on a deep copy of
the spec collecting SwaggerValidationErrors, and either raise an
aggregated SwaggerValidationError or serialize the untouched spec. -/
def encode (c : Codec) (table : List (String × Validator)) (document : Swagger) :
    EncodeResult :=
  let spec := generate_swagger_object document
  match runValidators table spec c.validators [] with
  | .keyError n => .keyError n
  | .importError m => .importError m
  | .done errors =>
    if errors.isEmpty then .ok (force_bytes (c.dump_dict spec))
    else
      .validationError ("spec validation failed: " ++ pyDictRepr errors) errors spec

/-- _OpenAPICodec.encode_error: serialize an error payload directly, with
no validation step. -/
def encode_error (c : Codec) (err : Doc) : String :=
  force_bytes (c.dump_dict err)

/-- The failing validators of a run, in list order: the names whose
validator raises SwaggerValidationError on a deep copy of the spec, paired
with the error message. -/
def failuresOf (table : List (String × Validator)) (spec : Doc) :
    List String → List (String × String)
  | [] => []
  | name :: rest =>
    match lookupValidator table name with
    | none => failuresOf table spec rest
    | some v =>
      match v (deepcopy spec) with
      | .ok _ => failuresOf table spec rest
      | .invalid msg _ => (name, msg) :: failuresOf table spec rest
      | .importError _ => failuresOf table spec rest

/-! ### JSON serialization (json.dumps) -/

/-- The decimal digit character for d < 10. -/
def digitChar (d : Nat) : Char := Char.ofNat (48 + d)

/-- The decimal digits of a number below its fuel, most significant
first. -/
def natDigitsGo : Nat → Nat → List Char
  | 0, _ => []
  | fuel + 1, n =>
    if n < 10 then [digitChar n]
    else natDigitsGo fuel (n / 10) ++ [digitChar (n % 10)]

/-- The decimal digits of a natural number, most significant first
(Python prints integers in plain decimal). -/
def natDigits (n : Nat) : List Char := natDigitsGo (n + 1) n

/-- Decimal rendering of a natural number. -/
def natStr (n : Nat) : String := String.mk (natDigits n)

/-- Python str() of an int: optional minus sign followed by the decimal
digits. -/
def intStr (n : Int) : String :=
  if n < 0 then "-" ++ natStr n.natAbs else natStr n.natAbs

/-- json.dumps escaping of one character inside a string literal, with
ensure_ascii=False: backslash, double quote and control characters are
escaped, everything else (including non-ASCII) is emitted literally. -/
def jsonEscapeChar (c : Char) : String :=
  if c = '\\' then "\\\\"
  else if c = dquote then "\\\""
  else if c = '\n' then "\\n"
  else if c = '\t' then "\\t"
  else if c = '\r' then "\\r"
  else if c = '\x08' then "\\b"
  else if c = '\x0c' then "\\f"
  else if c.toNat < 32 then "\\u00" ++ String.mk [digitChar (c.toNat / 16), digitChar (c.toNat % 16)]
  else String.singleton c

/-- A JSON string literal for s. -/
def jsonQuote (s : String) : String :=
  "\"" ++ strConcat (s.data.map jsonEscapeChar) ++ "\""

mutual

/-- json.dumps(spec, ensure_ascii=False) with the default separators
(item separator a comma followed by a space, key separator a colon
followed by a space) and no indentation. -/
def jsonCompact : Doc → String
  | .str s => jsonQuote s
  | .int n => intStr n
  | .bool b => if b then "true" else "false"
  | .null => "null"
  | .arr xs => "[" ++ jcItems xs ++ "]"
  | .obj kvs => "\x7b" ++ jcEntries kvs ++ "\x7d"

/-- The comma-space separated items of a compact JSON array. -/
def jcItems : List Doc → String
  | [] => ""
  | [x] => jsonCompact x
  | x :: y :: ys => jsonCompact x ++ ", " ++ jcItems (y :: ys)

/-- The comma-space separated entries of a compact JSON object. -/
def jcEntries : List (String × Doc) → String
  | [] => ""
  | [(k, v)] => jsonQuote k ++ ": " ++ jsonCompact v
  | (k, v) :: kv :: kvs => jsonQuote k ++ ": " ++ jsonCompact v ++ ", " ++ jcEntries (kv :: kvs)

end

/-- 4*n spaces: the indentation of nesting level n with indent=4. -/
def jsonIndent (lvl : Nat) : String := String.mk (List.replicate (4 * lvl) ' ')

mutual

/-- json.dumps(spec, indent=4, separators=(",", ": "), ensure_ascii=False)
at nesting level lvl: non-empty containers put each element on its own
line, indented four extra spaces, items separated by a comma and a
newline. -/
def jsonPretty (lvl : Nat) : Doc → String
  | .str s => jsonQuote s
  | .int n => intStr n
  | .bool b => if b then "true" else "false"
  | .null => "null"
  | .arr [] => "[]"
  | .arr (x :: xs) =>
      "[\n" ++ jpItems lvl (x :: xs) ++ "\n" ++ jsonIndent lvl ++ "]"
  | .obj [] => "\x7b\x7d"
  | .obj (kv :: kvs) =>
      "\x7b\n" ++ jpEntries lvl (kv :: kvs) ++ "\n" ++ jsonIndent lvl ++ "\x7d"

/-- The lines of a pretty JSON array body at parent level lvl. -/
def jpItems (lvl : Nat) : List Doc → String
  | [] => ""
  | [x] => jsonIndent (lvl + 1) ++ jsonPretty (lvl + 1) x
  | x :: y :: ys =>
      jsonIndent (lvl + 1) ++ jsonPretty (lvl + 1) x ++ ",\n" ++ jpItems lvl (y :: ys)

/-- The lines of a pretty JSON object body at parent level lvl. -/
def jpEntries (lvl : Nat) : List (String × Doc) → String
  | [] => ""
  | [(k, v)] => jsonIndent (lvl + 1) ++ jsonQuote k ++ ": " ++ jsonPretty (lvl + 1) v
  | (k, v) :: kv :: kvs =>
      jsonIndent (lvl + 1) ++ jsonQuote k ++ ": " ++ jsonPretty (lvl + 1) v ++ ",\n" ++
        jpEntries lvl (kv :: kvs)

end

/-- OpenAPICodecJson._dump_dict: pretty mode dumps with indent=4 and
separators=(",", ": ") and guarantees a trailing newline; compact mode is
a plain json.dumps with its default separators. -/
def OpenAPICodecJson_dump_dict (pretty : Bool) (spec : Doc) : String :=
  if pretty then
    let out := jsonPretty 0 spec
    if out.data.getLast? = some '\n' then out else out ++ "\n"
  else jsonCompact spec

/-- An OpenAPICodecJson instance as a Codec. -/
def OpenAPICodecJson (validators : List String) (pretty : Bool) : Codec :=
  ⟨validators, OpenAPICodecJson_dump_dict pretty⟩

/-! ### YAML serialization (SaneYamlDumper / yaml_sane_dump)

The ruamel/pyyaml emitter in block mode writes one line per mapping entry
or sequence item; nested blocks are indented two extra spaces (list items
are indented under their key because SaneYamlDumper.increase_indent forces
indentless=False).  A dumped block is modelled as a list of lines, each an
indentation width plus the line's text. -/

/-- One emitted line: indentation width and text (no newline). -/
structure Line where
  indent : Nat
  text : String

/-- n spaces. -/
def spacesStr (n : Nat) : String := String.mk (List.replicate n ' ')

/-- A line as emitted: indentation, text and the terminating newline
(fully empty lines, which occur only inside literal blocks, carry no
indentation). -/
def renderLine (l : Line) : String :=
  (if l.text = "" then "" else spacesStr l.indent ++ l.text) ++ "\n"

/-- The emitted text of a list of lines. -/
def renderLines : List Line → String
  | [] => ""
  | l :: ls => renderLine l ++ renderLines ls

/-- SaneYamlDumper.ignore_aliases: YAML references are disabled for every
value, so the serializer never emits an anchor or an alias and repeated
substructures are written out in full at every occurrence. -/
def SaneYamlDumper_ignore_aliases (data : Doc) : Bool := true

/-- A representer result: tag, value and requested scalar style (none
means the emitter's default style analysis). -/
structure ScalarNode where
  tag : String
  value : String
  style : Option Char

/-- SaneYamlDumper.represent_text: strings containing a newline are
represented with literal block style, all others with default style. -/
def represent_text (text : String) : ScalarNode :=
  if text.data.contains '\n' then ⟨"tag:yaml.org,2002:str", text, some '|'⟩
  else ⟨"tag:yaml.org,2002:str", text, none⟩

/-- The plain words the SafeLoader resolver turns into booleans or null;
a plain scalar string must not collide with them. -/
def reservedWords : List String :=
  ["yes", "Yes", "YES", "no", "No", "NO", "true", "True", "TRUE",
   "false", "False", "FALSE", "on", "On", "ON", "off", "Off", "OFF",
   "null", "Null", "NULL"]

/-- A conservative model of the emitter's plain-scalar analysis: a
non-empty alphanumeric word starting with a letter that the resolver
does not reinterpret is emitted plain (unquoted). -/
def plainSafe (s : String) : Bool :=
  match s.data with
  | [] => false
  | c :: cs =>
    c.isAlpha && (c :: cs).all (fun x => x.isAlpha || x.isDigit) &&
      !(reservedWords.contains s)

/-- Single-quoted YAML scalar: apostrophes are doubled. -/
def yamlSQ (s : String) : String :=
  String.singleton squote ++
    strConcat (s.data.map (fun c =>
      if c = squote then String.singleton squote ++ String.singleton squote
      else String.singleton c)) ++
    String.singleton squote

/-- Double-quoted YAML escaping of one character. -/
def yamlDQChar (c : Char) : String :=
  if c = '\\' then "\\\\"
  else if c = dquote then "\\\""
  else if c = '\t' then "\\t"
  else if c = '\r' then "\\r"
  else if c.toNat < 32 then "\\x" ++ String.mk [digitChar (c.toNat / 16), digitChar (c.toNat % 16)]
  else String.singleton c

/-- Double-quoted YAML scalar (used when control characters force it). -/
def yamlDQ (s : String) : String :=
  "\"" ++ strConcat (s.data.map yamlDQChar) ++ "\""

/-- A single-line string scalar as the emitter writes it: plain when
safe, single-quoted otherwise, double-quoted when control characters
require escapes. -/
def yamlStrInline (s : String) : String :=
  if plainSafe s then s
  else if s.data.all (fun c => 32 ≤ c.toNat) then yamlSQ s
  else yamlDQ s

/-- The chomping indicator of a literal block scalar: '-' when the text
has no trailing newline, '+' when it ends in more than one. -/
def chompOf (s : String) : String :=
  if s.data.getLast? ≠ some '\n' then "-"
  else if s.data = ['\n'] || s.data.dropLast.getLast? = some '\n' then "+"
  else ""

/-- Split a character stream into its lines (the final newline closes the
last line; a trailing fragment without a newline still forms a line). -/
def lineSplit : List Char → List (List Char)
  | [] => []
  | c :: rest =>
    if c = '\n' then [] :: lineSplit rest
    else
      match lineSplit rest with
      | [] => [[c]]
      | l :: ls => (c :: l) :: ls

/-- The lines of a literal block scalar's body. -/
def blockContentLines (s : String) : List String :=
  (lineSplit s.data).map String.mk

/-- A non-string single-line scalar as emitted by the SafeDumper. -/
def yamlScalarText : Doc → String
  | .str s => yamlStrInline s
  | .int m => intStr m
  | .bool b => if b then "true" else "false"
  | _ => "null"

mutual

/-- The lines of a block mapping at indentation n, one entry after
another in insertion order. -/
def mapLines : Nat → List (String × Doc) → List Line
  | _, [] => []
  | n, (k, v) :: rest => entryLines n k v ++ mapLines n rest

/-- The lines of one mapping entry at indentation n: scalar values stay
on the key's line, non-empty containers and literal blocks start a
nested block indented two extra spaces. -/
def entryLines : Nat → String → Doc → List Line
  | n, k, .str s =>
    match (represent_text s).style with
    | some _ =>
        ⟨n, yamlStrInline k ++ ": |" ++ chompOf s⟩ ::
          (blockContentLines s).map (fun t => ⟨n + 2, t⟩)
    | none => [⟨n, yamlStrInline k ++ ": " ++ yamlStrInline s⟩]
  | n, k, .int m => [⟨n, yamlStrInline k ++ ": " ++ intStr m⟩]
  | n, k, .bool b => [⟨n, yamlStrInline k ++ ": " ++ (if b then "true" else "false")⟩]
  | n, k, .null => [⟨n, yamlStrInline k ++ ": null"⟩]
  | n, k, .arr [] => [⟨n, yamlStrInline k ++ ": []"⟩]
  | n, k, .arr (x :: xs) => ⟨n, yamlStrInline k ++ ":"⟩ :: seqLines (n + 2) (x :: xs)
  | n, k, .obj [] => [⟨n, yamlStrInline k ++ ": \x7b\x7d"⟩]
  | n, k, .obj (kv :: kvs) => ⟨n, yamlStrInline k ++ ":"⟩ :: mapLines (n + 2) (kv :: kvs)

/-- The lines of a block sequence at indentation n. -/
def seqLines : Nat → List Doc → List Line
  | _, [] => []
  | n, x :: rest => itemLines n x ++ seqLines n rest

/-- The lines of one sequence item at indentation n: a container item is
emitted in compact form, its first line sharing the line of the dash. -/
def itemLines : Nat → Doc → List Line
  | n, .str s =>
    match (represent_text s).style with
    | some _ =>
        ⟨n, "- |" ++ chompOf s⟩ :: (blockContentLines s).map (fun t => ⟨n + 2, t⟩)
    | none => [⟨n, "- " ++ yamlStrInline s⟩]
  | n, .int m => [⟨n, "- " ++ intStr m⟩]
  | n, .bool b => [⟨n, "- " ++ (if b then "true" else "false")⟩]
  | n, .null => [⟨n, "- null"⟩]
  | n, .arr [] => [⟨n, "- []"⟩]
  | n, .arr (x :: xs) => dashFirst n (seqLines (n + 2) (x :: xs))
  | n, .obj [] => [⟨n, "- \x7b\x7d"⟩]
  | n, .obj (kv :: kvs) => dashFirst n (mapLines (n + 2) (kv :: kvs))

/-- Compact sequence-item form: the dash is written at indentation n and
the nested block's first line follows it on the same line. -/
def dashFirst (n : Nat) : List Line → List Line
  | [] => []
  | l :: rest => ⟨n, "- " ++ l.text⟩ :: rest

end

/-- yaml.dump(data, Dumper=SaneYamlDumper, allow_unicode=True,
default_flow_style=False, ...): block style document rendering.  A
top-level scalar document is followed by the document end marker. -/
def yamlRoot : Doc → String
  | .obj [] => "\x7b\x7d\n"
  | .arr [] => "[]\n"
  | .obj (kv :: kvs) => renderLines (mapLines 0 (kv :: kvs))
  | .arr (x :: xs) => renderLines (seqLines 0 (x :: xs))
  | .str s =>
    match (represent_text s).style with
    | some _ =>
        renderLines (⟨0, "|" ++ chompOf s⟩ :: (blockContentLines s).map (fun t => ⟨2, t⟩))
    | none => yamlStrInline s ++ "\n...\n"
  | .int m => intStr m ++ "\n...\n"
  | .bool b => (if b then "true" else "false") ++ "\n...\n"
  | .null => "null\n...\n"

/-- yaml_sane_dump: serialize with SaneYamlDumper (ordered mappings as
plain mappings, block style, indented list items, no aliases); the binary
flag selects utf-8 bytes versus text, which this model does not
distinguish. -/
def yaml_sane_dump (data : Doc) (binary : Bool) : String :=
  yamlRoot data

/-- OpenAPICodecYaml._dump_dict. -/
def OpenAPICodecYaml_dump_dict (spec : Doc) : String :=
  yaml_sane_dump spec true

/-- An OpenAPICodecYaml instance as a Codec. -/
def OpenAPICodecYaml (validators : List String) : Codec :=
  ⟨validators, OpenAPICodecYaml_dump_dict⟩

/-! ### YAML order-preserving loading (SaneYamlLoader / yaml_sane_load)

The loader is modelled as a recursive-descent parser over the physical
lines of a block-style document, resolving plain scalars the way the
SafeLoader resolver does and building ordered mappings in textual order
(SaneYamlLoader.construct_odict). -/

/-- The leading-space count of a line. -/
def leadCount : List Char → Nat
  | [] => 0
  | c :: rest => if c = ' ' then leadCount rest + 1 else 0

/-- The text of a line after its indentation. -/
def leadStrip : List Char → List Char
  | [] => []
  | c :: rest => if c = ' ' then leadStrip rest else c :: rest

/-- The physical lines of a document as indentation plus text. -/
def toLines (s : String) : List Line :=
  (lineSplit s.data).map (fun cs => ⟨leadCount cs, String.mk (leadStrip cs)⟩)

/-- Digit test for a non-empty character list. -/
def isDigits (cs : List Char) : Bool :=
  !(cs.isEmpty) && cs.all (·.isDigit)

/-- The numeric value of a list of decimal digits. -/
def digitsToNat (cs : List Char) : Nat :=
  cs.foldl (fun a c => 10 * a + (c.toNat - 48)) 0

/-- The words the SafeLoader bool resolver maps to True. -/
def boolTrueWords : List String := ["yes", "Yes", "YES", "true", "True", "TRUE", "on", "On", "ON"]

/-- The words the SafeLoader bool resolver maps to False. -/
def boolFalseWords : List String := ["no", "No", "NO", "false", "False", "FALSE", "off", "Off", "OFF"]

/-- The words the SafeLoader null resolver maps to None. -/
def nullWords : List String := ["null", "Null", "NULL", "~"]

/-- The SafeLoader resolver on a plain scalar: decimal integers, the
boolean and null words, everything else a string. -/
def parseScalar (t : String) : Doc :=
  match t.data with
  | [] => .null
  | c :: cs =>
    if c = '-' && isDigits cs then .int (-(Int.ofNat (digitsToNat cs)))
    else if isDigits (c :: cs) then .int (Int.ofNat (digitsToNat (c :: cs)))
    else if boolTrueWords.contains t then .bool true
    else if boolFalseWords.contains t then .bool false
    else if nullWords.contains t then .null
    else .str t

/-- Split a line at the first colon-space key separator. -/
def splitCS : List Char → Option (List Char × List Char)
  | [] => none
  | [_] => none
  | c :: c2 :: rest =>
    if c = ':' ∧ c2 = ' ' then some ([], rest)
    else
      match splitCS (c2 :: rest) with
      | some (a, b) => some (c :: a, b)
      | none => none

/-- Whether a line's text ends with the colon that opens a nested block. -/
def endsColon (t : String) : Bool :=
  t.data.getLast? = some ':'

/-- The key of a nested-block entry line (the text minus its colon). -/
def keyOf (t : String) : String := String.mk t.data.dropLast

/-- Whether a line's text begins a sequence item (a dash and a space). -/
def startsDash (t : String) : Bool :=
  match t.data with
  | '-' :: ' ' :: _ => true
  | _ => false

/-- The text after a sequence item's dash. -/
def dashStrip (t : String) : String := String.mk (t.data.drop 2)

mutual

/-- Parse one node starting at the given line, which must sit at
indentation n: a dash line opens a sequence, a key line opens a mapping,
anything else is a plain scalar. -/
def parseNode : Nat → Nat → List Line → Option (Doc × List Line)
  | 0, _, _ => none
  | _ + 1, _, [] => none
  | fuel + 1, n, l :: rest =>
    if l.indent = n then
      if startsDash l.text then parseSeqItems fuel n (l :: rest) []
      else if (splitCS l.text.data).isSome || endsColon l.text then
        parseMapEntries fuel n (l :: rest) []
      else some (parseScalar l.text, rest)
    else none
termination_by structural fuel _ _ => fuel

/-- Parse the consecutive entries of a block mapping at indentation n,
accumulating them in textual order (construct_odict). -/
def parseMapEntries : Nat → Nat → List Line → List (String × Doc) →
    Option (Doc × List Line)
  | 0, _, _, _ => none
  | _ + 1, _, [], acc => some (.obj acc, [])
  | fuel + 1, n, l :: rest, acc =>
    if l.indent = n && !(startsDash l.text) then
      match splitCS l.text.data with
      | some (kc, vc) =>
          parseMapEntries fuel n rest (acc ++ [(String.mk kc, parseScalar (String.mk vc))])
      | none =>
        if endsColon l.text then
          match parseNode fuel (n + 2) rest with
          | some (child, rest2) =>
              parseMapEntries fuel n rest2 (acc ++ [(keyOf l.text, child)])
          | none => none
        else none
    else some (.obj acc, l :: rest)
termination_by structural fuel _ _ _ => fuel

/-- Parse the consecutive items of a block sequence at indentation n; the
text after each dash is a virtual line two columns deeper (compact
form). -/
def parseSeqItems : Nat → Nat → List Line → List Doc → Option (Doc × List Line)
  | 0, _, _, _ => none
  | _ + 1, _, [], acc => some (.arr acc, [])
  | fuel + 1, n, l :: rest, acc =>
    if l.indent = n && startsDash l.text then
      match parseNode fuel (n + 2) (⟨n + 2, dashStrip l.text⟩ :: rest) with
      | some (item, rest2) => parseSeqItems fuel n rest2 (acc ++ [item])
      | none => none
    else some (.arr acc, l :: rest)
termination_by structural fuel _ _ _ => fuel

end

/-- The fuel measure of a list of lines: enough steps to parse it. -/
def linesSize (ls : List Line) : Nat :=
  ls.foldr (fun l a => l.text.length + 2 + a) 0

/-- yaml_sane_load: parse the YAML document and return the
order-preserving object tree; None models a parse failure. -/
def yaml_sane_load (stream : String) : Option Doc :=
  let ls := toLines stream
  match parseNode (linesSize ls + 2) 0 ls with
  | some (d, []) => some d
  | _ => none

/-! ### Specification-side predicates -/

mutual

/-- The documents of the well-behaved fragment used for the YAML
round-trip: plain alphanumeric keys and string scalars and non-empty
containers (empty containers and exotic scalars fall back to flow or
quoted styles). -/
def Sane : Doc → Bool
  | .str s => plainSafe s
  | .int _ => true
  | .bool _ => true
  | .null => true
  | .arr xs => !(xs.isEmpty) && saneList xs
  | .obj kvs => !(kvs.isEmpty) && sanePairs kvs

/-- Sane on every element of a list. -/
def saneList : List Doc → Bool
  | [] => true
  | x :: xs => Sane x && saneList xs

/-- Sane keys and values of a mapping's entries. -/
def sanePairs : List (String × Doc) → Bool
  | [] => true
  | (k, v) :: kvs => plainSafe k && Sane v && sanePairs kvs

end

/-- The characters that can appear in a block-YAML serialization of a
Sane document: alphanumerics, spaces, colons, dashes, newlines and the
dots of the document end marker. -/
def yamlChar (c : Char) : Bool :=
  c.isAlpha || c.isDigit || c == ' ' || c == ':' || c == '-' || c == '\n' || c == '.'

/-- Whether pat begins the character stream. -/
def startsSeq : List Char → List Char → Bool
  | [], _ => true
  | _ :: _, [] => false
  | p :: ps, c :: cs => p == c && startsSeq ps cs

/-- Whether pat occurs anywhere in the character stream (computable
substring test). -/
def seqHas (pat : List Char) : List Char → Bool
  | [] => pat.isEmpty
  | c :: rest => startsSeq pat (c :: rest) || seqHas pat rest

/-- a occurs in b as a contiguous substring. -/
def StrIn (a b : String) : Prop := ∃ l r, b = l ++ a ++ r

/-- The strings of ks occur in s in order, at disjoint positions. -/
def ContainsInOrder (s : String) : List String → Prop
  | [] => True
  | k :: ks => ∃ l r, s = l ++ k ++ r ∧ ContainsInOrder r ks

/-- d occurs as a (possibly nested) subdocument of its second argument. -/
inductive SubDoc : Doc → Doc → Prop where
  | refl (d : Doc) : SubDoc d d
  | inArr {d x : Doc} {xs : List Doc} : SubDoc d x → x ∈ xs → SubDoc d (.arr xs)
  | inObj {d v : Doc} {k : String} {kvs : List (String × Doc)} :
      SubDoc d v → (k, v) ∈ kvs → SubDoc d (.obj kvs)

/-- The strings of ks each occur in the text of some line, on distinct
lines appearing in list order. -/
inductive LinesCover : List Line → List String → Prop where
  | nil (ls : List Line) : LinesCover ls []
  | skip (l : Line) {ls : List Line} {ks : List String} :
      LinesCover ls ks → LinesCover (l :: ls) ks
  | hit (l : Line) {ls : List Line} {k : String} {ks : List String} :
      StrIn k l.text → LinesCover ls ks → LinesCover (l :: ls) (k :: ks)

/-- The block lines of a container document at indentation n (scalars own
no block). -/
def blockLinesOf (n : Nat) : Doc → List Line
  | .obj kvs => mapLines n kvs
  | .arr xs => seqLines n xs
  | _ => []

/-- Whether a document is a container (ordered mapping or sequence). -/
def isContainer : Doc → Bool
  | .obj _ => true
  | .arr _ => true
  | _ => false

/-- The lines following a block all sit at smaller indentation (or there
are none). -/
def endsBelow (n : Nat) : List Line → Prop
  | [] => True
  | l :: _ => l.indent < n

/-- A physical line whose text is non-empty, holds no newline and does
not begin with a space: rendering and re-splitting such lines is the
identity. -/
def goodLine (l : Line) : Prop :=
  '\n' ∉ l.text.data ∧
    match l.text.data with
    | [] => False
    | c :: _ => c ≠ ' '

/-! ## Helper lemmas -/

theorem strIn_self (a : String) : StrIn a a :=
  ⟨"", "", by rw [String.empty_append, String.append_empty]⟩

theorem strIn_appL {a b : String} (l : String) (h : StrIn a b) : StrIn a (l ++ b) := by
  obtain ⟨x, y, rfl⟩ := h
  exact ⟨l ++ x, y, by simp [String.append_assoc]⟩

theorem strIn_appR {a b : String} (r : String) (h : StrIn a b) : StrIn a (b ++ r) := by
  obtain ⟨x, y, rfl⟩ := h
  exact ⟨x, y ++ r, by simp [String.append_assoc]⟩

mutual

theorem deepcopy_eq : ∀ d, deepcopy d = d
  | .str _ => rfl
  | .int _ => rfl
  | .bool _ => rfl
  | .null => rfl
  | .arr xs => by rw [deepcopy, deepcopyList_eq]
  | .obj kvs => by rw [deepcopy, deepcopyPairs_eq]

theorem deepcopyList_eq : ∀ xs, deepcopyList xs = xs
  | [] => rfl
  | x :: xs => by rw [deepcopyList, deepcopy_eq x, deepcopyList_eq xs]

theorem deepcopyPairs_eq : ∀ kvs, deepcopyPairs kvs = kvs
  | [] => rfl
  | (k, v) :: kvs => by rw [deepcopyPairs, deepcopy_eq v, deepcopyPairs_eq kvs]

end

theorem updateAssoc_append (k : String) (v : String) :
    ∀ l : List (String × String), (∀ p ∈ l, p.1 ≠ k) → updateAssoc l k v = l ++ [(k, v)] := by
  intro l
  induction l with
  | nil => intro _; rfl
  | cons p rest ih =>
    intro h
    obtain ⟨k1, v1⟩ := p
    rw [updateAssoc]
    rw [if_neg (by exact fun hk => h (k1, v1) (by simp) hk)]
    rw [ih (fun q hq => h q (List.mem_cons_of_mem _ hq))]
    simp

/-- The validator loop without import-time failures: all configured
validators run, in order, and their SwaggerValidationErrors are collected
into the (insertion-ordered) errors dict. -/
theorem runValidators_done (table : List (String × Validator)) (spec : Doc) :
    ∀ (names : List String) (acc : List (String × String)),
      names.Nodup →
      (∀ name ∈ names, ∃ v, lookupValidator table name = some v ∧
        ∀ m, v (deepcopy spec) ≠ .importError m) →
      (∀ p ∈ acc, p.1 ∉ names) →
      runValidators table spec names acc = .done (acc ++ failuresOf table spec names) := by
  intro names
  induction names with
  | nil => intro acc _ _ _; simp [runValidators, failuresOf]
  | cons name rest ih =>
    intro acc hnd hreg hacc
    obtain ⟨v, hv, hni⟩ := hreg name (by simp)
    cases hout : v (deepcopy spec) with
    | ok m =>
      simp only [runValidators, failuresOf, hv, hout]
      exact ih acc (List.Nodup.of_cons hnd)
        (fun n hn => hreg n (List.mem_cons_of_mem _ hn))
        (fun p hp => fun hmem => hacc p hp (List.mem_cons_of_mem _ hmem))
    | invalid msg m =>
      simp only [runValidators, failuresOf, hv, hout]
      rw [updateAssoc_append name msg acc
        (fun p hp => fun hk => hacc p hp (hk ▸ List.mem_cons_self _ _))]
      have hside : ∀ p ∈ acc ++ [(name, msg)], p.1 ∉ rest := by
        intro p hp
        rcases List.mem_append.mp hp with h1 | h2
        · exact fun hmem => hacc p h1 (List.mem_cons_of_mem _ hmem)
        · simp at h2
          rw [h2]
          exact (List.nodup_cons.mp hnd).1
      rw [ih (acc ++ [(name, msg)]) (List.Nodup.of_cons hnd)
        (fun n hn => hreg n (List.mem_cons_of_mem _ hn)) hside]
      simp
    | importError m => exact absurd hout (hni m)

/-- The validator loop stops with KeyError at the first unregistered
name, provided no earlier validator raises a non-Swagger exception. -/
theorem runValidators_keyError (table : List (String × Validator)) (spec : Doc)
    (name : String) (post : List String) (hunk : lookupValidator table name = none) :
    ∀ (pre : List String) (acc : List (String × String)),
      (∀ p ∈ pre, ∃ v, lookupValidator table p = some v ∧
        ∀ m, v (deepcopy spec) ≠ .importError m) →
      runValidators table spec (pre ++ name :: post) acc = .keyError name := by
  intro pre
  induction pre with
  | nil => intro acc _; rw [List.nil_append, runValidators, hunk]
  | cons p0 rest ih =>
    intro acc hreg
    obtain ⟨v, hv, hni⟩ := hreg p0 (by simp)
    cases hout : v (deepcopy spec) with
    | ok m =>
      simp only [List.cons_append, runValidators, hv, hout]
      exact ih _ (fun q hq => hreg q (List.mem_cons_of_mem _ hq))
    | invalid msg m =>
      simp only [List.cons_append, runValidators, hv, hout]
      exact ih _ (fun q hq => hreg q (List.mem_cons_of_mem _ hq))
    | importError m => exact absurd hout (hni m)

/-! ## Claims -/

/-- C1: encode passes each validator an independent deep copy of the
converted spec (deepcopy leaves the document equal, and the possibly
mutated copy is discarded), so the spec serialized on success and the
spec attached to a raised SwaggerValidationError are exactly the spec
produced before any validator ran, whatever the validators do to their
input. -/
theorem encode_spec_isolation (c : Codec) (table : List (String × Validator))
    (document : Swagger) :
    (∀ out, encode c table document = .ok out →
      out = force_bytes (c.dump_dict (generate_swagger_object document))) ∧
    (∀ msg errs s, encode c table document = .validationError msg errs s →
      s = generate_swagger_object document) ∧
    deepcopy (generate_swagger_object document) = generate_swagger_object document := by
  refine ⟨?_, ?_, deepcopy_eq _⟩ <;> rw [encode] <;>
    cases hrun : runValidators table (generate_swagger_object document) c.validators [] <;>
    simp only []
  · case _ errors =>
    split
    · intro out hout
      cases hout
      rfl
    · intro out hout
      cases hout
  · intro out hout; cases hout
  · intro out hout; cases hout
  · case _ errors =>
    split
    · intro msg errs s hout; cases hout
    · intro msg errs s hout
      cases hout
      rfl
  · intro msg errs s hout; cases hout
  · intro msg errs s hout; cases hout

/-- C1 witness: a validator that both mutates its copy and succeeds, and
a run where it fails: in both cases the original spec is what encode
serializes or attaches. -/
theorem encode_spec_isolation_witness :
    encode ⟨["mut"], jsonCompact⟩ [("mut", fun _ => .ok .null)] ⟨.obj [("a", .int 1)]⟩ =
      .ok "\x7b\"a\": 1\x7d" ∧
    "\x7b\"a\": 1\x7d" =
      force_bytes (Codec.dump_dict ⟨["mut"], jsonCompact⟩
        (generate_swagger_object ⟨.obj [("a", .int 1)]⟩)) :=
  ⟨rfl, (encode_spec_isolation ⟨["mut"], jsonCompact⟩ [("mut", fun _ => .ok .null)]
      ⟨.obj [("a", .int 1)]⟩).1 _ rfl⟩

/-- C9: a codec whose validator list contains a name that was never
registered in VALIDATORS fails with a KeyError (the unknown-validator
error) when that name is resolved, for every input document, provided the
validators before it resolve and raise nothing fatal. -/
theorem encode_unknown_validator (c : Codec) (table : List (String × Validator))
    (document : Swagger) (pre : List String) (name : String) (post : List String)
    (hsplit : c.validators = pre ++ name :: post)
    (hunk : lookupValidator table name = none)
    (hpre : ∀ p ∈ pre, ∃ v, lookupValidator table p = some v ∧
      ∀ m, v (deepcopy (generate_swagger_object document)) ≠ .importError m) :
    encode c table document = .keyError name := by
  rw [encode, hsplit, runValidators_keyError table _ name post hunk pre [] hpre]

/-- C9 witness: a codec configured with the unregistered name "bogus"
after the registered "flex" fails with KeyError "bogus". -/
theorem encode_unknown_validator_witness :
    encode ⟨["flex", "bogus"], jsonCompact⟩
      (VALIDATORS ⟨false, fun s => (s, none), false, fun s => (s, none)⟩)
      ⟨.obj []⟩ = .keyError "bogus" :=
  encode_unknown_validator _ _ _ ["flex"] "bogus" [] rfl rfl
    (by
      intro p hp
      simp only [List.mem_singleton] at hp
      subst hp
      exact ⟨_, rfl, by intro m h; cases h⟩)

/-- C10: a codec constructed with an empty validator list performs no
validation: encode always succeeds and returns the serialized bytes of
the converted document, for every document and any state of the validator
table. -/
theorem encode_no_validators (dump : Doc → String) (table : List (String × Validator))
    (document : Swagger) :
    encode ⟨[], dump⟩ table document =
      .ok (force_bytes (dump (generate_swagger_object document))) := rfl

/-- C5 counterexample: with the swagger-spec-validator engine missing,
invoking the registered "ssv" validator raises ImportError at call time,
contradicting the claim that a validator with a missing backing engine
never raises a missing-dependency error when invoked. -/
theorem ssv_missing_engine_raises :
    _validate_swagger_spec_validator ⟨false, fun s => (s, none), false, fun s => (s, none)⟩
      .null = .importError "swagger_spec_validator" := rfl

/-- C5 amended: the flex validator catches ImportError at each call and
degrades to a no-op when its engine is missing, but the ssv validator
attempts its import inside the call with no guard, so a missing engine
raises ImportError at call time (the no-op decision is per call, not made
once at registration). -/
theorem optional_engine_behavior (env : PyEnv) (spec : Doc) :
    (env.flexAvailable = false → _validate_flex env spec = .ok spec) ∧
    (env.ssvAvailable = false →
      _validate_swagger_spec_validator env spec = .importError "swagger_spec_validator") := by
  constructor
  · intro h
    rw [_validate_flex]
    simp [h]
  · intro h
    rw [_validate_swagger_spec_validator]
    simp [h]

theorem strIn_trans {a b c : String} (h1 : StrIn a b) (h2 : StrIn b c) : StrIn a c := by
  obtain ⟨x, y, rfl⟩ := h1
  obtain ⟨u, v, rfl⟩ := h2
  exact ⟨u ++ x, y ++ v, by simp [String.append_assoc]⟩

theorem strConcat_escape_plain :
    ∀ cs : List Char, (∀ c ∈ cs, pyEscapeChar squote c = String.singleton c) →
      strConcat (cs.map (pyEscapeChar squote)) = String.mk cs := by
  intro cs
  induction cs with
  | nil => intro _; rfl
  | cons c rest ih =>
    intro h
    rw [List.map_cons, strConcat, h c (by simp), ih (fun x hx => h x (List.mem_cons_of_mem _ hx))]
    rfl

/-- Python repr of an escape-free message is just the message wrapped in
single quotes. -/
theorem pyStrRepr_plain (s : String) (h : plainRepr s = true) :
    pyStrRepr s = String.singleton squote ++ s ++ String.singleton squote := by
  have hall : ∀ c ∈ s.data,
      (!(c == squote || c == dquote || c == '\\' || c == '\n' || c == '\r' || c == '\t')) = true :=
    List.all_eq_true.mp h
  have hfacts : ∀ c ∈ s.data, c ≠ squote ∧ c ≠ dquote ∧ c ≠ '\\' ∧ c ≠ '\n' ∧ c ≠ '\r' ∧ c ≠ '\t' := by
    intro c hc
    have := hall c hc
    simp only [Bool.not_eq_eq_eq_not, Bool.not_true, Bool.or_eq_false_iff, beq_eq_false_iff_ne] at this
    exact ⟨this.1.1.1.1.1, this.1.1.1.1.2, this.1.1.1.2, this.1.1.2, this.1.2, this.2⟩
  have hq : s.data.any (fun c => c == squote) = false := by
    rw [List.any_eq_false]
    intro c hc
    simp [(hfacts c hc).1]
  rw [pyStrRepr]
  simp only [hq, Bool.false_and]
  rw [show (if (false = true) then dquote else squote) = squote from rfl]
  rw [strConcat_escape_plain s.data (fun c hc => by
    obtain ⟨h1, _, h3, h4, h5, h6⟩ := hfacts c hc
    rw [pyEscapeChar, if_neg h3, if_neg h1, if_neg h4, if_neg h5, if_neg h6])]

/-- Every entry of a Python dict repr occurs in the repr text. -/
theorem strIn_reprParts :
    ∀ (entries : List (String × String)) (p : String × String), p ∈ entries →
      StrIn (pyStrRepr p.1 ++ ": " ++ pyStrRepr p.2) (reprParts entries) := by
  intro entries
  induction entries with
  | nil => intro p hp; cases hp
  | cons p0 rest ih =>
    intro p hp
    cases rest with
    | nil =>
      simp only [List.mem_singleton] at hp
      rw [hp, reprParts]
      exact strIn_self _
    | cons q rest2 =>
      rcases List.mem_cons.mp hp with h1 | h2
      · subst h1
        rw [reprParts]
        have := strIn_appR (b := pyStrRepr p.1 ++ ": " ++ pyStrRepr p.2)
          (", " ++ reprParts (q :: rest2)) (strIn_self _)
        simpa [String.append_assoc] using this
      · rw [reprParts]
        have := strIn_appL (pyStrRepr p0.1 ++ ": " ++ pyStrRepr p0.2 ++ ", ") (ih p h2)
        simpa [String.append_assoc] using this

/-- C2: with every configured validator registered and none raising a
non-Swagger exception, encode runs all of them in order with no
short-circuit; it raises SwaggerValidationError exactly when at least one
validator failed, the raised error carries the failing validators (in
order, with their messages) and nothing else, and the message text
mentions every failing validator's message (stated for escape-free
messages, which Python's repr leaves verbatim). -/
theorem encode_aggregates_failures (c : Codec) (table : List (String × Validator))
    (document : Swagger) (hnd : c.validators.Nodup)
    (hreg : ∀ name ∈ c.validators, ∃ v, lookupValidator table name = some v ∧
      ∀ m, v (deepcopy (generate_swagger_object document)) ≠ .importError m) :
    (encode c table document =
      if failuresOf table (generate_swagger_object document) c.validators = [] then
        .ok (force_bytes (c.dump_dict (generate_swagger_object document)))
      else
        .validationError
          ("spec validation failed: " ++
            pyDictRepr (failuresOf table (generate_swagger_object document) c.validators))
          (failuresOf table (generate_swagger_object document) c.validators)
          (generate_swagger_object document)) ∧
    (∀ p ∈ failuresOf table (generate_swagger_object document) c.validators,
      plainRepr p.2 = true →
        StrIn p.2 ("spec validation failed: " ++
          pyDictRepr (failuresOf table (generate_swagger_object document) c.validators))) := by
  constructor
  · rw [encode, runValidators_done table (generate_swagger_object document) c.validators []
      hnd hreg (by simp)]
    simp only [List.nil_append]
    by_cases hf : failuresOf table (generate_swagger_object document) c.validators = []
    · simp [hf]
    · simp [hf, List.isEmpty_iff]
  · intro p hp hplain
    apply strIn_appL
    apply strIn_trans (b := pyStrRepr p.1 ++ ": " ++ pyStrRepr p.2)
    · apply strIn_appL
      rw [pyStrRepr_plain p.2 hplain]
      exact ⟨String.singleton squote, String.singleton squote, rfl⟩
    · apply strIn_trans (strIn_reprParts _ p hp)
      rw [pyDictRepr]
      exact strIn_appR _ (strIn_appL _ (strIn_self _))

/-- C2 witness: three validators, the first and third failing, the second
succeeding: the error lists exactly the two failures in order and its
message mentions both messages. -/
theorem encode_aggregates_failures_witness :
    encode ⟨["v1", "v2", "v3"], jsonCompact⟩
      [("v1", fun _ => .invalid "first bad" .null),
       ("v2", fun _ => .ok .null),
       ("v3", fun _ => .invalid "third bad" .null)] ⟨.obj [("a", .int 1)]⟩ =
      .validationError
        "spec validation failed: \x7b'v1': 'first bad', 'v3': 'third bad'\x7d"
        [("v1", "first bad"), ("v3", "third bad")] (.obj [("a", .int 1)]) ∧
    StrIn "first bad"
      "spec validation failed: \x7b'v1': 'first bad', 'v3': 'third bad'\x7d" ∧
    StrIn "third bad"
      "spec validation failed: \x7b'v1': 'first bad', 'v3': 'third bad'\x7d" := by
  refine ⟨rfl, ?_, ?_⟩
  · have h := (encode_aggregates_failures ⟨["v1", "v2", "v3"], jsonCompact⟩
      [("v1", fun _ => .invalid "first bad" .null),
       ("v2", fun _ => .ok .null),
       ("v3", fun _ => .invalid "third bad" .null)] ⟨.obj [("a", .int 1)]⟩
      (by simp) (by
        intro name hname
        fin_cases hname
        · exact ⟨_, rfl, fun m h => by cases h⟩
        · exact ⟨_, rfl, fun m h => by cases h⟩
        · exact ⟨_, rfl, fun m h => by cases h⟩)).2
      ("v1", "first bad") (by simp [failuresOf, lookupValidator, deepcopy, deepcopyPairs]) rfl
    simpa using h
  · have h := (encode_aggregates_failures ⟨["v1", "v2", "v3"], jsonCompact⟩
      [("v1", fun _ => .invalid "first bad" .null),
       ("v2", fun _ => .ok .null),
       ("v3", fun _ => .invalid "third bad" .null)] ⟨.obj [("a", .int 1)]⟩
      (by simp) (by
        intro name hname
        fin_cases hname
        · exact ⟨_, rfl, fun m h => by cases h⟩
        · exact ⟨_, rfl, fun m h => by cases h⟩
        · exact ⟨_, rfl, fun m h => by cases h⟩)).2
      ("v3", "third bad") (by simp [failuresOf, lookupValidator, deepcopy, deepcopyPairs]) rfl
    simpa using h

theorem digitChar_nl {d : Nat} (h : d < 16) : digitChar d ≠ '\n' := by
  interval_cases d <;> decide

theorem digitChar_isDigit {d : Nat} (h : d < 10) : (digitChar d).isDigit = true := by
  interval_cases d <;> decide

theorem digitChar_toNat {d : Nat} (h : d < 10) : (digitChar d).toNat = 48 + d := by
  interval_cases d <;> decide

theorem mem_strConcat {c : Char} :
    ∀ ss : List String, c ∈ (strConcat ss).data → ∃ s ∈ ss, c ∈ s.data := by
  intro ss
  induction ss with
  | nil => intro h; cases h
  | cons s rest ih =>
    intro h
    rw [strConcat, String.data_append] at h
    rcases List.mem_append.mp h with h1 | h2
    · exact ⟨s, by simp, h1⟩
    · obtain ⟨t, ht, hc⟩ := ih h2
      exact ⟨t, List.mem_cons_of_mem _ ht, hc⟩

theorem natDigitsGo_digits :
    ∀ fuel n, n < fuel → ∀ c ∈ natDigitsGo fuel n, c.isDigit = true := by
  intro fuel
  induction fuel with
  | zero => intro n h; omega
  | succ fuel ih =>
    intro n h c hc
    rw [natDigitsGo] at hc
    split at hc
    · simp at hc
      rw [hc]
      next hlt => exact digitChar_isDigit hlt
    · next hge =>
      rcases List.mem_append.mp hc with h1 | h2
      · exact ih (n / 10) (by omega) c h1
      · simp at h2
        rw [h2]
        exact digitChar_isDigit (by omega)

theorem jsonEscapeChar_nl (c : Char) : '\n' ∉ (jsonEscapeChar c).data := by
  rw [jsonEscapeChar]
  split
  · decide
  split
  · decide
  split
  · decide
  split
  · decide
  split
  · decide
  split
  · decide
  split
  · decide
  split
  · next hlt =>
    intro hmem
    rw [String.data_append] at hmem
    rcases List.mem_append.mp hmem with h1 | h2
    · exact absurd h1 (by decide)
    · simp at h2
      rcases h2 with h3 | h3
      · exact digitChar_nl (d := c.toNat / 16) (by omega) h3.symm
      · exact digitChar_nl (d := c.toNat % 16) (by omega) h3.symm
  · next h1 h2 h3 h4 h5 h6 h7 h8 =>
    intro hmem
    simp [String.singleton] at hmem
    exact h3 hmem.symm

mutual

theorem jsonCompact_nl : ∀ d, '\n' ∉ (jsonCompact d).data
  | .str s => by
    rw [jsonCompact, jsonQuote]
    intro hmem
    rw [String.data_append, String.data_append] at hmem
    rcases List.mem_append.mp hmem with h1 | h2
    · rcases List.mem_append.mp h1 with h3 | h4
      · exact absurd h3 (by decide)
      · obtain ⟨t, ht, hc⟩ := mem_strConcat _ h4
        obtain ⟨ch, _, rfl⟩ := List.mem_map.mp ht
        exact jsonEscapeChar_nl ch hc
    · exact absurd h2 (by decide)
  | .int n => by
    rw [jsonCompact, intStr]
    intro hmem
    have hdig : ∀ c ∈ (natStr n.natAbs).data, c.isDigit = true := by
      intro c hc
      rw [natStr, natDigits] at hc
      exact natDigitsGo_digits _ _ (Nat.lt_succ_self _) c hc
    split at hmem
    · rw [String.data_append] at hmem
      rcases List.mem_append.mp hmem with h1 | h2
      · exact absurd h1 (by decide)
      · exact absurd (hdig _ h2) (by decide)
    · exact absurd (hdig _ hmem) (by decide)
  | .bool b => by cases b <;> decide
  | .null => by decide
  | .arr xs => by
    rw [jsonCompact]
    intro hmem
    rw [String.data_append, String.data_append] at hmem
    rcases List.mem_append.mp hmem with h1 | h2
    · rcases List.mem_append.mp h1 with h3 | h4
      · exact absurd h3 (by decide)
      · exact jcItems_nl xs h4
    · exact absurd h2 (by decide)
  | .obj kvs => by
    rw [jsonCompact]
    intro hmem
    rw [String.data_append, String.data_append] at hmem
    rcases List.mem_append.mp hmem with h1 | h2
    · rcases List.mem_append.mp h1 with h3 | h4
      · exact absurd h3 (by decide)
      · exact jcEntries_nl kvs h4
    · exact absurd h2 (by decide)

theorem jcItems_nl : ∀ xs, '\n' ∉ (jcItems xs).data
  | [] => by decide
  | [x] => by rw [jcItems]; exact jsonCompact_nl x
  | x :: y :: ys => by
    rw [jcItems]
    intro hmem
    rw [String.data_append, String.data_append] at hmem
    rcases List.mem_append.mp hmem with h1 | h2
    · rcases List.mem_append.mp h1 with h3 | h4
      · exact jsonCompact_nl x h3
      · exact absurd h4 (by decide)
    · exact jcItems_nl (y :: ys) h2

theorem jcEntries_nl : ∀ kvs, '\n' ∉ (jcEntries kvs).data
  | [] => by decide
  | [(k, v)] => by
    rw [jcEntries]
    intro hmem
    rw [String.data_append, String.data_append] at hmem
    rcases List.mem_append.mp hmem with h1 | h2
    · rcases List.mem_append.mp h1 with h3 | h4
      · exact jsonCompact_nl (.str k) (by rw [jsonCompact]; exact h3)
      · exact absurd h4 (by decide)
    · exact jsonCompact_nl v h2
  | (k, v) :: kv :: kvs => by
    rw [jcEntries]
    intro hmem
    rw [String.data_append, String.data_append, String.data_append, String.data_append] at hmem
    rcases List.mem_append.mp hmem with h1 | h2
    · rcases List.mem_append.mp h1 with h3 | h4
      · rcases List.mem_append.mp h3 with h5 | h6
        · rcases List.mem_append.mp h5 with h7 | h8
          · exact jsonCompact_nl (.str k) (by rw [jsonCompact]; exact h7)
          · exact absurd h8 (by decide)
        · exact jsonCompact_nl v h6
      · exact absurd h4 (by decide)
    · exact jcEntries_nl (kv :: kvs) h2

end

/-- C6 counterexample: compact mode is json.dumps with its default
separators, which do contain insignificant whitespace (a space after
every colon and comma), and pretty mode's item separator is a bare comma
before the newline, so no comma-space pair occurs in pretty output:
both halves of the claimed formatting contract fail on the spec's own
example document. -/
theorem json_separators_counterexample :
    OpenAPICodecJson_dump_dict false (.obj [("a", .int 1), ("b", .arr [.int 1, .int 2])]) =
      "\x7b\"a\": 1, \"b\": [1, 2]\x7d" ∧
    (' ' ∈ (OpenAPICodecJson_dump_dict false
      (.obj [("a", .int 1), ("b", .arr [.int 1, .int 2])])).data) ∧
    seqHas ", ".data (OpenAPICodecJson_dump_dict true
      (.obj [("a", .int 1), ("b", .arr [.int 1, .int 2])])).data = false :=
  ⟨rfl, by decide, by decide⟩

/-- C6 amended: pretty mode uses 4-space indentation, a bare comma
followed by a newline between items, colon-space after keys, literal
non-ASCII and a guaranteed trailing newline; compact mode stays on one
line (no newline anywhere, hence no trailing newline) but uses the
default comma-space and colon-space separators. -/
theorem json_dump_modes (spec : Doc) :
    (OpenAPICodecJson_dump_dict true spec).data.getLast? = some '\n' ∧
    ((OpenAPICodecJson_dump_dict false spec).data.contains '\n') = false ∧
    OpenAPICodecJson_dump_dict false (.obj [("a", .int 1), ("b", .arr [.int 1, .int 2])]) =
      "\x7b\"a\": 1, \"b\": [1, 2]\x7d" ∧
    OpenAPICodecJson_dump_dict true (.obj [("a", .int 1), ("b", .arr [.int 1, .int 2])]) =
      "\x7b\n    \"a\": 1,\n    \"b\": [\n        1,\n        2\n    ]\n\x7d\n" ∧
    OpenAPICodecJson_dump_dict false (.str "é") = "\"é\"" := by
  refine ⟨?_, ?_, rfl, rfl, rfl⟩
  · rw [OpenAPICodecJson_dump_dict]
    simp only [if_true]
    split
    · next h => exact h
    · rw [String.data_append]
      exact List.getLast?_concat _
  · rw [OpenAPICodecJson_dump_dict]
    simp only [if_false]
    simp [jsonCompact_nl spec]

theorem plainSafe_chars {s : String} (h : plainSafe s = true) :
    s.data ≠ [] ∧ ∀ c ∈ s.data, c.isAlpha = true ∨ c.isDigit = true := by
  rw [plainSafe] at h
  cases hd : s.data with
  | nil => rw [hd] at h; cases h
  | cons c cs =>
    rw [hd] at h
    simp only [Bool.and_eq_true] at h
    refine ⟨by simp, ?_⟩
    intro x hx
    have := List.all_eq_true.mp h.1.2 x hx
    simpa [Bool.or_eq_true_iff] using this

theorem plainSafe_head {s : String} (h : plainSafe s = true) :
    ∃ c cs, s.data = c :: cs ∧ c.isAlpha = true := by
  rw [plainSafe] at h
  cases hd : s.data with
  | nil => rw [hd] at h; cases h
  | cons c cs =>
    rw [hd] at h
    simp only [Bool.and_eq_true] at h
    exact ⟨c, cs, rfl, h.1.1⟩

theorem plainSafe_no_nl {s : String} (h : plainSafe s = true) : '\n' ∉ s.data := by
  intro hm
  rcases (plainSafe_chars h).2 _ hm with h1 | h1 <;> exact absurd h1 (by decide)

theorem represent_text_plain {s : String} (h : plainSafe s = true) :
    represent_text s = ⟨"tag:yaml.org,2002:str", s, none⟩ := by
  have hnl : '\n' ∉ s.data := plainSafe_no_nl h
  simp [represent_text, hnl]

theorem yamlChar_of_mem_of_all {cs : List Char} (c : Char) (hc : c ∈ cs)
    (hall : cs.all yamlChar = true) : yamlChar c = true := List.all_eq_true.mp hall c hc

theorem yamlStrInline_plain {s : String} (h : plainSafe s = true) : yamlStrInline s = s := by
  rw [yamlStrInline, if_pos h]

theorem yamlChar_of_plainSafe {s : String} (h : plainSafe s = true) :
    ∀ c ∈ s.data, yamlChar c = true := by
  intro c hc
  rcases (plainSafe_chars h).2 c hc with h1 | h1 <;> simp [yamlChar, h1]

theorem natStr_digits (m : Nat) : ∀ c ∈ (natStr m).data, c.isDigit = true := by
  intro c hc
  rw [natStr, natDigits] at hc
  exact natDigitsGo_digits _ _ (Nat.lt_succ_self _) c hc

theorem yamlChar_intStr (n : Int) : ∀ c ∈ (intStr n).data, yamlChar c = true := by
  intro c hc
  rw [intStr] at hc
  split at hc
  · rw [String.data_append] at hc
    rcases List.mem_append.mp hc with h1 | h2
    · simp at h1
      rw [h1]
      decide
    · simp [yamlChar, natStr_digits _ _ h2]
  · simp [yamlChar, natStr_digits _ _ hc]

mutual

theorem mapLines_chars :
    ∀ (n : Nat) (kvs : List (String × Doc)), sanePairs kvs = true →
      ∀ l ∈ mapLines n kvs, ∀ c ∈ l.text.data, yamlChar c = true
  | _, [], _, l, hl => by rw [mapLines] at hl; cases hl
  | n, (k, v) :: rest, hs, l, hl => by
    rw [sanePairs] at hs
    simp only [Bool.and_eq_true] at hs
    rw [mapLines] at hl
    rcases List.mem_append.mp hl with h1 | h2
    · exact entryLines_chars n k v hs.1.1 hs.1.2 l h1
    · exact mapLines_chars n rest hs.2 l h2

theorem entryLines_chars :
    ∀ (n : Nat) (k : String) (v : Doc), plainSafe k = true → Sane v = true →
      ∀ l ∈ entryLines n k v, ∀ c ∈ l.text.data, yamlChar c = true
  | n, k, .str s, hk, hv, l, hl => by
    rw [Sane] at hv
    rw [entryLines] at hl
    rw [represent_text_plain hv] at hl
    simp only [List.mem_singleton] at hl
    rw [hl]
    intro c hc
    simp only [String.data_append] at hc
    rcases List.mem_append.mp hc with h1 | h2
    · rcases List.mem_append.mp h1 with h3 | h4
      · exact yamlChar_of_plainSafe hk c (by rwa [yamlStrInline_plain hk] at h3)
      · exact yamlChar_of_mem_of_all c h4 (by decide)
    · exact yamlChar_of_plainSafe hv c (by rwa [yamlStrInline_plain hv] at h2)
  | n, k, .int m, hk, _, l, hl => by
    rw [entryLines] at hl
    simp only [List.mem_singleton] at hl
    rw [hl]
    intro c hc
    simp only [String.data_append] at hc
    rcases List.mem_append.mp hc with h1 | h2
    · rcases List.mem_append.mp h1 with h3 | h4
      · exact yamlChar_of_plainSafe hk c (by rwa [yamlStrInline_plain hk] at h3)
      · exact yamlChar_of_mem_of_all c h4 (by decide)
    · exact yamlChar_intStr m c h2
  | n, k, .bool b, hk, _, l, hl => by
    rw [entryLines] at hl
    simp only [List.mem_singleton] at hl
    rw [hl]
    intro c hc
    simp only [String.data_append] at hc
    rcases List.mem_append.mp hc with h1 | h2
    · rcases List.mem_append.mp h1 with h3 | h4
      · exact yamlChar_of_plainSafe hk c (by rwa [yamlStrInline_plain hk] at h3)
      · exact yamlChar_of_mem_of_all c h4 (by decide)
    · cases b
      · rw [if_neg (by simp)] at h2
        exact yamlChar_of_mem_of_all c h2 (by decide)
      · rw [if_pos rfl] at h2
        exact yamlChar_of_mem_of_all c h2 (by decide)
  | n, k, .null, hk, _, l, hl => by
    rw [entryLines] at hl
    simp only [List.mem_singleton] at hl
    rw [hl]
    intro c hc
    simp only [String.data_append] at hc
    rcases List.mem_append.mp hc with h1 | h2
    · exact yamlChar_of_plainSafe hk c (by rwa [yamlStrInline_plain hk] at h1)
    · exact yamlChar_of_mem_of_all c h2 (by decide)
  | n, k, .arr [], hk, hv, l, hl => by rw [Sane] at hv; simp at hv
  | n, k, .arr (x :: xs), hk, hv, l, hl => by
    rw [Sane] at hv
    simp only [Bool.and_eq_true] at hv
    rw [entryLines] at hl
    rcases List.mem_cons.mp hl with h1 | h2
    · rw [h1]
      intro c hc
      simp only [String.data_append] at hc
      rcases List.mem_append.mp hc with h3 | h4
      · exact yamlChar_of_plainSafe hk c (by rwa [yamlStrInline_plain hk] at h3)
      · exact yamlChar_of_mem_of_all c h4 (by decide)
    · exact seqLines_chars (n + 2) (x :: xs) hv.2 l h2
  | n, k, .obj [], hk, hv, l, hl => by rw [Sane] at hv; simp at hv
  | n, k, .obj (kv :: kvs), hk, hv, l, hl => by
    rw [Sane] at hv
    simp only [Bool.and_eq_true] at hv
    rw [entryLines] at hl
    rcases List.mem_cons.mp hl with h1 | h2
    · rw [h1]
      intro c hc
      simp only [String.data_append] at hc
      rcases List.mem_append.mp hc with h3 | h4
      · exact yamlChar_of_plainSafe hk c (by rwa [yamlStrInline_plain hk] at h3)
      · exact yamlChar_of_mem_of_all c h4 (by decide)
    · exact mapLines_chars (n + 2) (kv :: kvs) hv.2 l h2

theorem seqLines_chars :
    ∀ (n : Nat) (xs : List Doc), saneList xs = true →
      ∀ l ∈ seqLines n xs, ∀ c ∈ l.text.data, yamlChar c = true
  | _, [], _, l, hl => by rw [seqLines] at hl; cases hl
  | n, x :: rest, hs, l, hl => by
    rw [saneList] at hs
    simp only [Bool.and_eq_true] at hs
    rw [seqLines] at hl
    rcases List.mem_append.mp hl with h1 | h2
    · exact itemLines_chars n x hs.1 l h1
    · exact seqLines_chars n rest hs.2 l h2

theorem itemLines_chars :
    ∀ (n : Nat) (x : Doc), Sane x = true →
      ∀ l ∈ itemLines n x, ∀ c ∈ l.text.data, yamlChar c = true
  | n, .str s, hv, l, hl => by
    rw [Sane] at hv
    rw [itemLines] at hl
    rw [represent_text_plain hv] at hl
    simp only [List.mem_singleton] at hl
    rw [hl]
    intro c hc
    simp only [String.data_append] at hc
    rcases List.mem_append.mp hc with h1 | h2
    · exact yamlChar_of_mem_of_all c h1 (by decide)
    · exact yamlChar_of_plainSafe hv c (by rwa [yamlStrInline_plain hv] at h2)
  | n, .int m, _, l, hl => by
    rw [itemLines] at hl
    simp only [List.mem_singleton] at hl
    rw [hl]
    intro c hc
    simp only [String.data_append] at hc
    rcases List.mem_append.mp hc with h1 | h2
    · exact yamlChar_of_mem_of_all c h1 (by decide)
    · exact yamlChar_intStr m c h2
  | n, .bool b, _, l, hl => by
    rw [itemLines] at hl
    simp only [List.mem_singleton] at hl
    rw [hl]
    intro c hc
    simp only [String.data_append] at hc
    rcases List.mem_append.mp hc with h1 | h2
    · exact yamlChar_of_mem_of_all c h1 (by decide)
    · cases b
      · rw [if_neg (by simp)] at h2
        exact yamlChar_of_mem_of_all c h2 (by decide)
      · rw [if_pos rfl] at h2
        exact yamlChar_of_mem_of_all c h2 (by decide)
  | n, .null, _, l, hl => by
    rw [itemLines] at hl
    simp only [List.mem_singleton] at hl
    rw [hl]
    intro c hc
    have hc2 : c ∈ ("- null").data := hc
    exact yamlChar_of_mem_of_all c hc2 (by decide)
  | n, .arr [], hv, l, hl => by rw [Sane] at hv; simp at hv
  | n, .arr (x :: xs), hv, l, hl => by
    rw [Sane] at hv
    simp only [Bool.and_eq_true] at hv
    rw [itemLines] at hl
    cases hch : seqLines (n + 2) (x :: xs) with
    | nil => rw [hch, dashFirst] at hl; cases hl
    | cons c0 cs =>
      rw [hch, dashFirst] at hl
      rcases List.mem_cons.mp hl with h1 | h2
      · rw [h1]
        intro c hc
        simp only [String.data_append] at hc
        rcases List.mem_append.mp hc with h3 | h4
        · exact yamlChar_of_mem_of_all c h3 (by decide)
        · exact seqLines_chars (n + 2) (x :: xs) hv.2 c0 (by rw [hch]; simp) c h4
      · exact seqLines_chars (n + 2) (x :: xs) hv.2 l
          (by rw [hch]; exact List.mem_cons_of_mem _ h2)
  | n, .obj [], hv, l, hl => by rw [Sane] at hv; simp at hv
  | n, .obj (kv :: kvs), hv, l, hl => by
    rw [Sane] at hv
    simp only [Bool.and_eq_true] at hv
    rw [itemLines] at hl
    cases hch : mapLines (n + 2) (kv :: kvs) with
    | nil => rw [hch, dashFirst] at hl; cases hl
    | cons c0 cs =>
      rw [hch, dashFirst] at hl
      rcases List.mem_cons.mp hl with h1 | h2
      · rw [h1]
        intro c hc
        simp only [String.data_append] at hc
        rcases List.mem_append.mp hc with h3 | h4
        · exact yamlChar_of_mem_of_all c h3 (by decide)
        · exact mapLines_chars (n + 2) (kv :: kvs) hv.2 c0 (by rw [hch]; simp) c h4
      · exact mapLines_chars (n + 2) (kv :: kvs) hv.2 l
          (by rw [hch]; exact List.mem_cons_of_mem _ h2)

end

theorem renderLines_chars :
    ∀ ls : List Line, (∀ l ∈ ls, ∀ c ∈ l.text.data, yamlChar c = true) →
      ∀ c ∈ (renderLines ls).data, yamlChar c = true := by
  intro ls
  induction ls with
  | nil => intro _ c hc; cases hc
  | cons l rest ih =>
    intro h c hc
    rw [renderLines, String.data_append] at hc
    rcases List.mem_append.mp hc with h1 | h2
    · rw [renderLine, String.data_append] at h1
      rcases List.mem_append.mp h1 with h3 | h4
      · split at h3
        · cases h3
        · rw [String.data_append] at h3
          rcases List.mem_append.mp h3 with h5 | h6
          · rw [spacesStr] at h5
            have := List.eq_of_mem_replicate h5
            rw [this]
            decide
          · exact h l (by simp) c h6
      · simp at h4
        rw [h4]
        decide
    · exact ih (fun x hx => h x (List.mem_cons_of_mem _ hx)) c h2

theorem renderLines_append :
    ∀ a b : List Line, renderLines (a ++ b) = renderLines a ++ renderLines b := by
  intro a b
  induction a with
  | nil => simp [renderLines]
  | cons l rest ih => rw [List.cons_append, renderLines, renderLines, ih, String.append_assoc]

theorem mapLines_append (n : Nat) :
    ∀ a b, mapLines n (a ++ b) = mapLines n a ++ mapLines n b := by
  intro a b
  induction a with
  | nil => simp [mapLines]
  | cons kv rest ih =>
    obtain ⟨k, v⟩ := kv
    rw [List.cons_append, mapLines, mapLines, ih, List.append_assoc]

/-- The serialization of a Sane document contains only benign characters
(in particular no anchor or alias marker). -/
theorem yamlRoot_chars (d : Doc) (hd : Sane d = true) :
    ∀ c ∈ (yamlRoot d).data, yamlChar c = true := by
  cases d with
  | str s =>
    rw [Sane] at hd
    rw [yamlRoot, represent_text_plain hd]
    intro c hc
    simp only [String.data_append] at hc
    rcases List.mem_append.mp hc with h1 | h2
    · exact yamlChar_of_plainSafe hd c (by rwa [yamlStrInline_plain hd] at h1)
    · exact yamlChar_of_mem_of_all c h2 (by decide)
  | int m =>
    rw [yamlRoot]
    intro c hc
    simp only [String.data_append] at hc
    rcases List.mem_append.mp hc with h1 | h2
    · exact yamlChar_intStr m c h1
    · exact yamlChar_of_mem_of_all c h2 (by decide)
  | bool b =>
    rw [yamlRoot]
    intro c hc
    cases b
    · rw [if_neg (by simp)] at hc
      exact yamlChar_of_mem_of_all c hc (by decide)
    · rw [if_pos rfl] at hc
      exact yamlChar_of_mem_of_all c hc (by decide)
  | null =>
    rw [yamlRoot]
    intro c hc
    exact yamlChar_of_mem_of_all c hc (by decide)
  | arr xs =>
    cases xs with
    | nil => rw [Sane] at hd; simp at hd
    | cons x rest =>
      rw [Sane] at hd
      simp only [Bool.and_eq_true] at hd
      rw [yamlRoot]
      exact renderLines_chars _ (seqLines_chars 0 (x :: rest) hd.2)
  | obj kvs =>
    cases kvs with
    | nil => rw [Sane] at hd; simp at hd
    | cons kv rest =>
      rw [Sane] at hd
      simp only [Bool.and_eq_true] at hd
      rw [yamlRoot]
      exact renderLines_chars _ (mapLines_chars 0 (kv :: rest) hd.2)

theorem yamlRoot_obj : ∀ kvs : List (String × Doc), kvs ≠ [] →
    yamlRoot (.obj kvs) = renderLines (mapLines 0 kvs) := by
  intro kvs h
  cases kvs with
  | nil => exact absurd rfl h
  | cons kv rest => rw [yamlRoot]

theorem renderLines_cons (l : Line) (ls : List Line) :
    renderLines (l :: ls) = renderLine l ++ renderLines ls := rfl

theorem containsInOrder_nil2 (s : String) : ContainsInOrder s ["", ""] :=
  ⟨"", s, by simp, "", s, by simp, trivial⟩

theorem containsInOrder_two (s A B C x y : String)
    (h : s = A ++ x ++ B ++ y ++ C) : ContainsInOrder s [x, y] := by
  subst h
  exact ⟨A, B ++ y ++ C, by simp [String.append_assoc], B, C, rfl, trivial⟩

/-- C8: a string scalar containing a newline is represented with literal
block style (style '|') and serialized as a literal block opened by "|"
on the key's line; any other string keeps the default (None) style and is
serialized inline on the key's line. -/
theorem yaml_multiline_literal_block (k s : String) :
    (s.data.contains '\n' = true →
      (represent_text s).style = some '|' ∧
      ∃ rest, yaml_sane_dump (.obj [(k, .str s)]) true =
        yamlStrInline k ++ ": |" ++ rest) ∧
    (s.data.contains '\n' = false →
      (represent_text s).style = none ∧
      yaml_sane_dump (.obj [(k, .str s)]) true =
        yamlStrInline k ++ ": " ++ yamlStrInline s ++ "\n") := by
  constructor
  · intro h
    have hmem : '\n' ∈ s.data := by simpa using h
    have hst : represent_text s = ⟨"tag:yaml.org,2002:str", s, some '|'⟩ := by
      simp [represent_text, hmem]
    refine ⟨by rw [hst], ?_⟩
    rw [yaml_sane_dump, yamlRoot, mapLines, entryLines, hst]
    rw [show mapLines 0 ([] : List (String × Doc)) = [] from rfl, List.append_nil]
    rw [renderLines_cons, renderLine]
    have ht : yamlStrInline k ++ ": |" ++ chompOf s ≠ "" := by
      intro heq
      have := congrArg String.data heq
      simp [String.data_append] at this
    rw [if_neg ht]
    refine ⟨chompOf s ++ ("\n" ++
      renderLines ((blockContentLines s).map (fun t => ⟨2, t⟩))), ?_⟩
    rw [show spacesStr 0 = "" from rfl]
    simp [String.append_assoc]
  · intro h
    have hmem : '\n' ∉ s.data := by simpa using h
    have hst : represent_text s = ⟨"tag:yaml.org,2002:str", s, none⟩ := by
      simp [represent_text, hmem]
    refine ⟨by rw [hst], ?_⟩
    rw [yaml_sane_dump, yamlRoot, mapLines, entryLines, hst]
    rw [show mapLines 0 ([] : List (String × Doc)) = [] from rfl, List.append_nil]
    rw [renderLines_cons, renderLine]
    have ht : yamlStrInline k ++ ": " ++ yamlStrInline s ≠ "" := by
      intro heq
      have := congrArg String.data heq
      simp [String.data_append] at this
    rw [if_neg ht]
    rw [show spacesStr 0 = "" from rfl]
    show ((("" ++ (yamlStrInline k ++ ": " ++ yamlStrInline s)) ++ "\n") ++ "") = _
    simp [String.append_assoc]

/-- C8 witness: the spec's example string with an embedded newline is
dumped as a literal block, and a plain string stays inline unquoted. -/
theorem yaml_multiline_literal_block_witness :
    (represent_text "line1\nline2").style = some '|' ∧
    yaml_sane_dump (.obj [("k", .str "line1\nline2")]) true = "k: |-\n  line1\n  line2\n" ∧
    (∃ rest, yaml_sane_dump (.obj [("k", .str "line1\nline2")]) true =
      yamlStrInline "k" ++ ": |" ++ rest) ∧
    (represent_text "hello").style = none ∧
    yaml_sane_dump (.obj [("k", .str "hello")]) true =
      yamlStrInline "k" ++ ": " ++ yamlStrInline "hello" ++ "\n" :=
  ⟨((yaml_multiline_literal_block "k" "line1\nline2").1 rfl).1, rfl,
   ((yaml_multiline_literal_block "k" "line1\nline2").1 rfl).2,
   ((yaml_multiline_literal_block "k" "hello").2 rfl).1,
   ((yaml_multiline_literal_block "k" "hello").2 rfl).2⟩

/-- C4: ignore_aliases disables aliasing for every value, so a document
with the same sub-mapping at two different paths is emitted with the
sub-mapping's full block at both occurrences, and the serialization of a
Sane document never contains an anchor or alias marker character. -/
theorem yaml_no_aliases (pre mid post : List (String × Doc)) (k1 k2 : String)
    (mkvs : List (String × Doc)) (d : Doc) (hd : Sane d = true) :
    (∀ x, SaneYamlDumper_ignore_aliases x = true) ∧
    ContainsInOrder
      (yaml_sane_dump (.obj (pre ++ (k1, .obj mkvs) :: mid ++ (k2, .obj mkvs) :: post)) true)
      [renderLines (mapLines 2 mkvs), renderLines (mapLines 2 mkvs)] ∧
    ((yaml_sane_dump d true).data.contains '&' = false ∧
     (yaml_sane_dump d true).data.contains '*' = false) := by
  refine ⟨fun _ => rfl, ?_, ?_, ?_⟩
  · rw [yaml_sane_dump, yamlRoot_obj _ (by simp)]
    cases hm : mkvs with
    | nil =>
      show ContainsInOrder _ ["", ""]
      exact containsInOrder_nil2 _
    | cons kv0 rest0 =>
      apply containsInOrder_two _
        (renderLines (mapLines 0 pre) ++ renderLine (Line.mk 0 (yamlStrInline k1 ++ ":")))
        (renderLines (mapLines 0 mid) ++ renderLine (Line.mk 0 (yamlStrInline k2 ++ ":")))
        (renderLines (mapLines 0 post))
      rw [mapLines_append, mapLines, entryLines, mapLines_append, mapLines, entryLines]
      simp [renderLines_append, renderLines_cons, String.append_assoc, List.append_assoc]
  · have h1 : '&' ∉ (yamlRoot d).data :=
      fun hm => absurd (yamlRoot_chars d hd '&' hm) (by decide)
    rw [yaml_sane_dump]
    simp [h1]
  · have h1 : '*' ∉ (yamlRoot d).data :=
      fun hm => absurd (yamlRoot_chars d hd '*' hm) (by decide)
    rw [yaml_sane_dump]
    simp [h1]

/-- C4 witness: two independently written identical sub-mappings are both
emitted in full, with no anchor or alias markers in the output. -/
theorem yaml_no_aliases_witness :
    yaml_sane_dump (.obj [("a", .obj [("x", .int 1)]), ("b", .obj [("x", .int 1)])]) true =
      "a:\n  x: 1\nb:\n  x: 1\n" ∧
    ContainsInOrder
      (yaml_sane_dump (.obj [("a", .obj [("x", .int 1)]), ("b", .obj [("x", .int 1)])]) true)
      [renderLines (mapLines 2 [("x", .int 1)]), renderLines (mapLines 2 [("x", .int 1)])] ∧
    (yaml_sane_dump (.obj [("a", .obj [("x", .int 1)]), ("b", .obj [("x", .int 1)])])
      true).data.contains '&' = false ∧
    (yaml_sane_dump (.obj [("a", .obj [("x", .int 1)]), ("b", .obj [("x", .int 1)])])
      true).data.contains '*' = false := by
  have h := yaml_no_aliases [] [] [] "a" "b" [("x", .int 1)]
    (.obj [("a", .obj [("x", .int 1)]), ("b", .obj [("x", .int 1)])]) rfl
  exact ⟨rfl, h.2.1, h.2.2.1, h.2.2.2⟩

theorem cio_appL {s : String} {ks : List String} (l : String)
    (h : ContainsInOrder s ks) : ContainsInOrder (l ++ s) ks := by
  cases ks with
  | nil => trivial
  | cons k rest =>
    obtain ⟨x, y, hxy, hrest⟩ := h
    exact ⟨l ++ x, y, by rw [hxy]; simp [String.append_assoc], hrest⟩

theorem cio_appR {s : String} {ks : List String} (r : String)
    (h : ContainsInOrder s ks) : ContainsInOrder (s ++ r) ks := by
  induction ks generalizing s with
  | nil => trivial
  | cons k rest ih =>
    obtain ⟨x, y, hxy, hrest⟩ := h
    exact ⟨x, y ++ r, by rw [hxy]; simp [String.append_assoc], ih hrest⟩

theorem cio_of_strIn {s t : String} {ks : List String}
    (h : ContainsInOrder s ks) (hin : StrIn s t) : ContainsInOrder t ks := by
  obtain ⟨l, r, rfl⟩ := hin
  exact cio_appR r (cio_appL l h)

theorem strIn_jcItems {x : Doc} : ∀ xs : List Doc, x ∈ xs → StrIn (jsonCompact x) (jcItems xs)
  | [], h => absurd h (List.not_mem_nil _)
  | [y], h => by
    simp only [List.mem_singleton] at h
    rw [h, jcItems]
    exact strIn_self _
  | y :: z :: zs, h => by
    rw [jcItems]
    rcases List.mem_cons.mp h with h1 | h2
    · rw [h1]
      exact strIn_appR _ (strIn_appR _ (strIn_self _))
    · exact strIn_appL _ (strIn_jcItems (z :: zs) h2)

theorem strIn_jcEntries {v : Doc} {k : String} :
    ∀ kvs : List (String × Doc), (k, v) ∈ kvs → StrIn (jsonCompact v) (jcEntries kvs)
  | [], h => absurd h (List.not_mem_nil _)
  | [(k2, v2)], h => by
    simp only [List.mem_singleton, Prod.mk.injEq] at h
    rw [jcEntries, ← h.2]
    exact strIn_appL _ (strIn_self _)
  | (k2, v2) :: kv :: kvs, h => by
    rw [jcEntries]
    rcases List.mem_cons.mp h with h1 | h2
    · rw [show v = v2 from congrArg Prod.snd h1]
      exact strIn_appR _ (strIn_appR _ (strIn_appL _ (strIn_self _)))
    · exact strIn_appL _ (strIn_jcEntries (kv :: kvs) h2)

theorem strIn_jsonCompact {s t : Doc} (h : SubDoc s t) :
    StrIn (jsonCompact s) (jsonCompact t) := by
  induction h with
  | refl => exact strIn_self _
  | inArr hsub hmem ih =>
    refine strIn_trans ih ?_
    rw [jsonCompact]
    exact strIn_appR _ (strIn_appL _ (strIn_jcItems _ hmem))
  | inObj hsub hmem ih =>
    refine strIn_trans ih ?_
    rw [jsonCompact]
    exact strIn_appR _ (strIn_appL _ (strIn_jcEntries _ hmem))

theorem cio_jcEntries : ∀ kvs : List (String × Doc),
    ContainsInOrder (jcEntries kvs) (kvs.map (fun kv => jsonQuote kv.1))
  | [] => trivial
  | [(k, v)] => by
    rw [jcEntries]
    exact ⟨"", ": " ++ jsonCompact v, by simp [String.append_assoc], trivial⟩
  | (k, v) :: kv :: kvs => by
    rw [jcEntries]
    refine ⟨"", ": " ++ jsonCompact v ++ ", " ++ jcEntries (kv :: kvs),
      by simp [String.append_assoc], ?_⟩
    exact cio_appL (": " ++ jsonCompact v ++ ", ") (cio_jcEntries (kv :: kvs))

theorem cio_jsonCompact_obj (kvs : List (String × Doc)) :
    ContainsInOrder (jsonCompact (.obj kvs)) (kvs.map (fun kv => jsonQuote kv.1)) := by
  rw [jsonCompact]
  exact cio_appR _ (cio_appL _ (cio_jcEntries kvs))

theorem strIn_jpItems {x : Doc} (lvl : Nat) :
    ∀ xs : List Doc, x ∈ xs → StrIn (jsonPretty (lvl + 1) x) (jpItems lvl xs)
  | [], h => absurd h (List.not_mem_nil _)
  | [y], h => by
    simp only [List.mem_singleton] at h
    rw [h, jpItems]
    exact strIn_appL _ (strIn_self _)
  | y :: z :: zs, h => by
    rw [jpItems]
    rcases List.mem_cons.mp h with h1 | h2
    · rw [h1]
      exact strIn_appR _ (strIn_appR _ (strIn_appL _ (strIn_self _)))
    · exact strIn_appL _ (strIn_jpItems lvl (z :: zs) h2)

theorem strIn_jpEntries {v : Doc} {k : String} (lvl : Nat) :
    ∀ kvs : List (String × Doc), (k, v) ∈ kvs →
      StrIn (jsonPretty (lvl + 1) v) (jpEntries lvl kvs)
  | [], h => absurd h (List.not_mem_nil _)
  | [(k2, v2)], h => by
    simp only [List.mem_singleton, Prod.mk.injEq] at h
    rw [jpEntries, ← h.2]
    exact strIn_appL _ (strIn_self _)
  | (k2, v2) :: kv :: kvs, h => by
    rw [jpEntries]
    rcases List.mem_cons.mp h with h1 | h2
    · rw [show v = v2 from congrArg Prod.snd h1]
      exact strIn_appR _ (strIn_appR _ (strIn_appL _ (strIn_self _)))
    · exact strIn_appL _ (strIn_jpEntries lvl (kv :: kvs) h2)

theorem strIn_jsonPretty {s t : Doc} (h : SubDoc s t) :
    ∀ lvl, ∃ m, StrIn (jsonPretty m s) (jsonPretty lvl t) := by
  induction h with
  | refl => intro lvl; exact ⟨lvl, strIn_self _⟩
  | inArr hsub hmem ih =>
    intro lvl
    obtain ⟨m, hm⟩ := ih (lvl + 1)
    refine ⟨m, strIn_trans hm ?_⟩
    rename_i xs
    cases xs with
    | nil => cases hmem
    | cons y ys =>
      rw [jsonPretty]
      exact strIn_appR _ (strIn_appR _ (strIn_appR _ (strIn_appL _
        (strIn_jpItems lvl _ hmem))))
  | inObj hsub hmem ih =>
    intro lvl
    obtain ⟨m, hm⟩ := ih (lvl + 1)
    refine ⟨m, strIn_trans hm ?_⟩
    rename_i kvs
    cases kvs with
    | nil => cases hmem
    | cons kv rest =>
      rw [jsonPretty]
      exact strIn_appR _ (strIn_appR _ (strIn_appR _ (strIn_appL _
        (strIn_jpEntries lvl _ hmem))))

theorem cio_jpEntries (lvl : Nat) : ∀ kvs : List (String × Doc),
    ContainsInOrder (jpEntries lvl kvs) (kvs.map (fun kv => jsonQuote kv.1))
  | [] => trivial
  | [(k, v)] => by
    rw [jpEntries]
    exact ⟨jsonIndent (lvl + 1), ": " ++ jsonPretty (lvl + 1) v,
      by simp [String.append_assoc], trivial⟩
  | (k, v) :: kv :: kvs => by
    rw [jpEntries]
    refine ⟨jsonIndent (lvl + 1),
      ": " ++ jsonPretty (lvl + 1) v ++ ",\n" ++ jpEntries lvl (kv :: kvs),
      by simp [String.append_assoc], ?_⟩
    exact cio_appL (": " ++ jsonPretty (lvl + 1) v ++ ",\n") (cio_jpEntries lvl (kv :: kvs))

theorem cio_jsonPretty_obj (lvl : Nat) (kvs : List (String × Doc)) :
    ContainsInOrder (jsonPretty lvl (.obj kvs)) (kvs.map (fun kv => jsonQuote kv.1)) := by
  cases kvs with
  | nil => trivial
  | cons kv rest =>
    rw [jsonPretty]
    exact cio_appR _ (cio_appR _ (cio_appR _ (cio_appL _ (cio_jpEntries lvl (kv :: rest)))))

theorem seqLines_append (n : Nat) :
    ∀ a b, seqLines n (a ++ b) = seqLines n a ++ seqLines n b := by
  intro a b
  induction a with
  | nil => simp [seqLines]
  | cons x rest ih => rw [List.cons_append, seqLines, seqLines, ih, List.append_assoc]

theorem cio_renderLines_of_cover : ∀ {ls : List Line} {ks : List String},
    LinesCover ls ks → ContainsInOrder (renderLines ls) ks := by
  intro ls ks h
  induction h with
  | nil => trivial
  | skip l hcov ih =>
    rw [renderLines_cons]
    exact cio_appL _ ih
  | hit l hk hcov ih =>
    rw [renderLines_cons]
    obtain ⟨a, b, hab⟩ := hk
    rw [renderLine, hab]
    split
    · next he =>
      rename_i ls2 k ks2
      have hdat := congrArg String.data he
      simp only [String.data_append] at hdat
      rcases List.append_eq_nil.mp hdat with ⟨hak, hb⟩
      rcases List.append_eq_nil.mp hak with ⟨ha, hk0⟩
      have hke : k = "" := String.ext hk0
      rw [hke]
      exact ⟨"", "\n" ++ renderLines ls2, by simp [String.append_assoc], cio_appL _ ih⟩
    · rename_i ls2 k ks2 hne
      exact ⟨spacesStr l.indent ++ a, b ++ ("\n" ++ renderLines ls2),
        by simp [String.append_assoc], cio_appL b (cio_appL "\n" ih)⟩

theorem cover_appL (pre : List Line) {ls : List Line} {ks : List String}
    (h : LinesCover ls ks) : LinesCover (pre ++ ls) ks := by
  induction pre with
  | nil => exact h
  | cons l rest ih => exact LinesCover.skip l ih

theorem cover_appR {ls : List Line} {ks : List String} (post : List Line)
    (h : LinesCover ls ks) : LinesCover (ls ++ post) ks := by
  induction h with
  | nil => exact LinesCover.nil _
  | skip l hcov ih => exact LinesCover.skip l ih
  | hit l hk hcov ih => exact LinesCover.hit l hk ih

theorem cover_dashFirst (n : Nat) {ls : List Line} {ks : List String}
    (h : LinesCover ls ks) : LinesCover (dashFirst n ls) ks := by
  cases h with
  | nil => exact LinesCover.nil _
  | skip l hcov =>
    rw [dashFirst]
    exact LinesCover.skip _ hcov
  | hit l hk hcov =>
    rw [dashFirst]
    exact LinesCover.hit _ (strIn_appL "- " hk) hcov

theorem entryLines_head (n : Nat) (k : String) (v : Doc) :
    ∃ t rest2, entryLines n k v = Line.mk n (yamlStrInline k ++ t) :: rest2 := by
  cases v with
  | str s =>
    rw [entryLines]
    cases hc : s.data.contains '\n'
    · simp only [represent_text, hc]
      exact ⟨": " ++ yamlStrInline s, [], by simp [String.append_assoc]⟩
    · simp only [represent_text, hc]
      exact ⟨": |" ++ chompOf s, (blockContentLines s).map (fun t => ⟨n + 2, t⟩),
        by simp [String.append_assoc]⟩
  | int m =>
    rw [entryLines]
    exact ⟨": " ++ intStr m, [], by simp [String.append_assoc]⟩
  | bool b =>
    rw [entryLines]
    exact ⟨": " ++ (if b then "true" else "false"), [], by simp [String.append_assoc]⟩
  | null =>
    rw [entryLines]
    exact ⟨": null", [], by simp [String.append_assoc]⟩
  | arr xs =>
    cases xs with
    | nil =>
      rw [entryLines]
      exact ⟨": []", [], by simp [String.append_assoc]⟩
    | cons x rest =>
      rw [entryLines]
      exact ⟨":", seqLines (n + 2) (x :: rest), rfl⟩
  | obj kvs =>
    cases kvs with
    | nil =>
      rw [entryLines]
      exact ⟨": \x7b\x7d", [], by simp [String.append_assoc]⟩
    | cons kv rest =>
      rw [entryLines]
      exact ⟨":", mapLines (n + 2) (kv :: rest), rfl⟩

theorem cover_mapLines_self : ∀ (kvs : List (String × Doc)) (n : Nat),
    LinesCover (mapLines n kvs) (kvs.map fun kv => yamlStrInline kv.1)
  | [], _ => LinesCover.nil _
  | (k, v) :: rest, n => by
    rw [mapLines]
    obtain ⟨t, rest2, he⟩ := entryLines_head n k v
    rw [he, List.cons_append]
    exact LinesCover.hit _ ⟨"", t, by simp⟩
      (cover_appL rest2 (cover_mapLines_self rest n))

theorem cover_of_subDoc {tkvs : List (String × Doc)} {d : Doc}
    (h : SubDoc (.obj tkvs) d) :
    ∀ n, LinesCover (blockLinesOf n d) (tkvs.map fun kv => yamlStrInline kv.1) := by
  induction h with
  | refl => intro n; exact cover_mapLines_self tkvs n
  | inArr hsub hmem ih =>
    intro n
    rename_i x xs
    rw [blockLinesOf]
    obtain ⟨s1, s2, rfl⟩ := List.append_of_mem hmem
    rw [seqLines_append, seqLines]
    apply cover_appL
    cases x with
    | str s => cases hsub
    | int m => cases hsub
    | bool b => cases hsub
    | null => cases hsub
    | arr ys =>
      cases ys with
      | nil =>
        cases hsub with
        | inArr h2 hm2 => cases hm2
      | cons y ys2 =>
        rw [itemLines]
        exact cover_appR _ (cover_dashFirst n (ih (n + 2)))
    | obj kvs2 =>
      cases kvs2 with
      | nil =>
        cases hsub with
        | refl => exact LinesCover.nil _
        | inObj h2 hm2 => cases hm2
      | cons kv kvs3 =>
        rw [itemLines]
        exact cover_appR _ (cover_dashFirst n (ih (n + 2)))
  | inObj hsub hmem ih =>
    intro n
    rename_i v k kvs
    rw [blockLinesOf]
    obtain ⟨s1, s2, rfl⟩ := List.append_of_mem hmem
    rw [mapLines_append, mapLines]
    apply cover_appL
    cases v with
    | str s => cases hsub
    | int m => cases hsub
    | bool b => cases hsub
    | null => cases hsub
    | arr ys =>
      cases ys with
      | nil =>
        cases hsub with
        | inArr h2 hm2 => cases hm2
      | cons y ys2 =>
        rw [entryLines, List.cons_append]
        exact LinesCover.skip _ (cover_appR _ (ih (n + 2)))
    | obj kvs2 =>
      cases kvs2 with
      | nil =>
        cases hsub with
        | refl => exact LinesCover.nil _
        | inObj h2 hm2 => cases hm2
      | cons kv kvs3 =>
        rw [entryLines, List.cons_append]
        exact LinesCover.skip _ (cover_appR _ (ih (n + 2)))

/-- C3: every ordered mapping of the document, at any nesting level, has
its keys' serialized representations appear in the output in exactly the
mapping's order — for the compact JSON codec, the pretty JSON codec and
the YAML codec alike. -/
theorem serialized_key_order (d : Doc) (kvs : List (String × Doc))
    (h : SubDoc (.obj kvs) d) :
    ContainsInOrder (OpenAPICodecJson_dump_dict false d)
      (kvs.map (fun kv => jsonQuote kv.1)) ∧
    ContainsInOrder (OpenAPICodecJson_dump_dict true d)
      (kvs.map (fun kv => jsonQuote kv.1)) ∧
    ContainsInOrder (OpenAPICodecYaml_dump_dict d)
      (kvs.map (fun kv => yamlStrInline kv.1)) := by
  refine ⟨?_, ?_, ?_⟩
  · show ContainsInOrder (jsonCompact d) _
    exact cio_of_strIn (cio_jsonCompact_obj kvs) (strIn_jsonCompact h)
  · show ContainsInOrder
      (if (jsonPretty 0 d).data.getLast? = some '\n' then jsonPretty 0 d
       else jsonPretty 0 d ++ "\n") _
    obtain ⟨m, hm⟩ := strIn_jsonPretty h 0
    have base := cio_of_strIn (cio_jsonPretty_obj m kvs) hm
    split
    · exact base
    · exact cio_appR _ base
  · show ContainsInOrder (yamlRoot d) _
    cases d with
    | str s => cases h
    | int m => cases h
    | bool b => cases h
    | null => cases h
    | arr xs =>
      cases xs with
      | nil =>
        cases h with
        | inArr h2 hm2 => cases hm2
      | cons x rest =>
        rw [yamlRoot]
        exact cio_renderLines_of_cover (cover_of_subDoc h 0)
    | obj kvs2 =>
      cases kvs2 with
      | nil =>
        cases h with
        | refl => trivial
        | inObj h2 hm2 => cases hm2
      | cons kv rest =>
        rw [yamlRoot]
        exact cio_renderLines_of_cover (cover_of_subDoc h 0)

/-- C3 witness: a nested mapping two levels down keeps its key order in
all three serializations. -/
theorem serialized_key_order_witness :
    ContainsInOrder
      (OpenAPICodecJson_dump_dict false
        (.obj [("top", .arr [.int 1, .obj [("kb", .int 2), ("ka", .int 3), ("kc", .null)]])]))
      [jsonQuote "kb", jsonQuote "ka", jsonQuote "kc"] ∧
    ContainsInOrder
      (OpenAPICodecJson_dump_dict true
        (.obj [("top", .arr [.int 1, .obj [("kb", .int 2), ("ka", .int 3), ("kc", .null)]])]))
      [jsonQuote "kb", jsonQuote "ka", jsonQuote "kc"] ∧
    ContainsInOrder
      (OpenAPICodecYaml_dump_dict
        (.obj [("top", .arr [.int 1, .obj [("kb", .int 2), ("ka", .int 3), ("kc", .null)]])]))
      [yamlStrInline "kb", yamlStrInline "ka", yamlStrInline "kc"] := by
  have h := serialized_key_order
    (.obj [("top", .arr [.int 1, .obj [("kb", .int 2), ("ka", .int 3), ("kc", .null)]])])
    [("kb", .int 2), ("ka", .int 3), ("kc", .null)]
    (by
      refine SubDoc.inObj (k := "top")
        (v := .arr [.int 1, .obj [("kb", .int 2), ("ka", .int 3), ("kc", .null)]]) ?_ (by simp)
      exact SubDoc.inArr (x := .obj [("kb", .int 2), ("ka", .int 3), ("kc", .null)])
        (SubDoc.refl _) (by simp))
  exact h

/-- C5 amended witness: both behaviors at a concrete environment with no
engines installed. -/
theorem optional_engine_behavior_witness :
    _validate_flex ⟨false, fun s => (s, none), false, fun s => (s, none)⟩ (.int 3) =
      .ok (.int 3) ∧
    _validate_swagger_spec_validator ⟨false, fun s => (s, none), false, fun s => (s, none)⟩
      (.int 3) = .importError "swagger_spec_validator" :=
  ⟨(optional_engine_behavior ⟨false, fun s => (s, none), false, fun s => (s, none)⟩ (.int 3)).1 rfl,
   (optional_engine_behavior ⟨false, fun s => (s, none), false, fun s => (s, none)⟩ (.int 3)).2 rfl⟩

/-! ## Round-trip helper lemmas -/

theorem isAlpha_not_isDigit {c : Char} (h : c.isAlpha = true) : c.isDigit = false := by
  rw [Char.isAlpha, Char.isLower, Char.isUpper] at h
  rw [Char.isDigit]
  simp only [Bool.or_eq_true, Bool.and_eq_true, decide_eq_true_eq, ge_iff_le, UInt32.le_def,
    BitVec.le_def] at h
  rw [show (UInt32.toBitVec 65).toNat = 65 from rfl, show (UInt32.toBitVec 90).toNat = 90 from rfl,
    show (UInt32.toBitVec 97).toNat = 97 from rfl,
    show (UInt32.toBitVec 122).toNat = 122 from rfl] at h
  rw [Bool.and_eq_false_iff]
  simp only [decide_eq_false_iff_not, ge_iff_le, UInt32.le_def, BitVec.le_def, not_le]
  rw [show (UInt32.toBitVec 48).toNat = 48 from rfl, show (UInt32.toBitVec 57).toNat = 57 from rfl]
  omega

theorem isAlpha_ne {c : Char} (h : c.isAlpha = true) :
    c ≠ ' ' ∧ c ≠ '-' ∧ c ≠ ':' ∧ c ≠ '\n' := by
  refine ⟨?_, ?_, ?_, ?_⟩ <;> intro heq <;> subst heq <;> exact absurd h (by decide)

theorem isDigit_ne {c : Char} (h : c.isDigit = true) :
    c ≠ ' ' ∧ c ≠ '-' ∧ c ≠ ':' ∧ c ≠ '\n' := by
  refine ⟨?_, ?_, ?_, ?_⟩ <;> intro heq <;> subst heq <;> exact absurd h (by decide)

theorem plainChar_ne {c : Char} (h : c.isAlpha = true ∨ c.isDigit = true) :
    c ≠ ' ' ∧ c ≠ '-' ∧ c ≠ ':' ∧ c ≠ '\n' := by
  rcases h with h | h
  · exact isAlpha_ne h
  · exact isDigit_ne h

theorem lineSplit_append {lc : List Char} (rest : List Char) (h : '\n' ∉ lc) :
    lineSplit (lc ++ '\n' :: rest) = lc :: lineSplit rest := by
  induction lc with
  | nil => rw [List.nil_append, lineSplit, if_pos rfl]
  | cons c cs ih =>
    rw [List.cons_append, lineSplit]
    rw [if_neg (fun hc => h (by rw [hc]; exact List.mem_cons_self _ _))]
    rw [ih (fun hm => h (List.mem_cons_of_mem _ hm))]

theorem leadCount_replicate (n : Nat) {t : List Char}
    (h : match t with | [] => False | c :: _ => c ≠ ' ') :
    leadCount (List.replicate n ' ' ++ t) = n ∧ leadStrip (List.replicate n ' ' ++ t) = t := by
  induction n with
  | zero =>
    rw [List.replicate, List.nil_append]
    cases t with
    | nil => exact h.elim
    | cons c cs =>
      rw [leadCount, leadStrip, if_neg h, if_neg h]
      exact ⟨rfl, rfl⟩
  | succ m ih =>
    rw [List.replicate_succ, List.cons_append, leadCount, leadStrip, if_pos rfl, if_pos rfl]
    exact ⟨by rw [ih.1], ih.2⟩

/-- Rendering good lines and re-splitting the stream recovers the lines
exactly. -/
theorem toLines_renderLines : ∀ ls : List Line, (∀ l ∈ ls, goodLine l) →
    toLines (renderLines ls) = ls := by
  intro ls
  induction ls with
  | nil => intro _; rfl
  | cons l rest ih =>
    intro hg
    obtain ⟨hnl, hhead⟩ := hg l (by simp)
    have hte : l.text ≠ "" := by
      intro he
      rw [he] at hhead
      exact hhead
    rw [renderLines_cons, toLines, String.data_append, renderLine, if_neg hte,
      String.data_append, String.data_append, List.append_assoc, List.singleton_append]
    rw [lineSplit_append _ (by
      intro hm
      rcases List.mem_append.mp hm with h1 | h2
      · have h3 := List.eq_of_mem_replicate (show '\n' ∈ List.replicate l.indent ' ' from h1)
        exact absurd h3 (by decide)
      · exact hnl h2)]
    rw [List.map_cons]
    have hlc := leadCount_replicate l.indent (t := l.text.data) hhead
    have h4 : (spacesStr l.indent).data = List.replicate l.indent ' ' := rfl
    rw [h4, hlc.1, hlc.2]
    have h5 : toLines (renderLines rest) = rest :=
      ih (fun x hx => hg x (List.mem_cons_of_mem _ hx))
    rw [toLines] at h5
    rw [h5]

theorem linesSize_cons (l : Line) (ls : List Line) :
    linesSize (l :: ls) = l.text.length + 2 + linesSize ls := rfl

theorem linesSize_append : ∀ a b : List Line, linesSize (a ++ b) = linesSize a + linesSize b := by
  intro a b
  induction a with
  | nil => simp [linesSize]
  | cons l rest ih =>
    rw [List.cons_append, linesSize_cons, linesSize_cons, ih]
    omega

theorem digitsToNat_natDigitsGo : ∀ fuel n, n < fuel →
    digitsToNat (natDigitsGo fuel n) = n := by
  intro fuel
  induction fuel with
  | zero => intro n h; omega
  | succ fuel ih =>
    intro n h
    rw [natDigitsGo]
    split
    · next hlt =>
      rw [digitsToNat, List.foldl_cons, List.foldl_nil, digitChar_toNat hlt]
      omega
    · next hge =>
      rw [digitsToNat, List.foldl_append, List.foldl_cons, List.foldl_nil]
      rw [show List.foldl (fun a c => 10 * a + (c.toNat - 48)) 0 (natDigitsGo fuel (n / 10)) =
        digitsToNat (natDigitsGo fuel (n / 10)) from rfl]
      rw [ih (n / 10) (by omega), digitChar_toNat (by omega)]
      omega

theorem natDigitsGo_ne_nil (fuel n : Nat) (h : n < fuel) : natDigitsGo fuel n ≠ [] := by
  cases fuel with
  | zero => omega
  | succ m =>
    rw [natDigitsGo]
    split
    · simp
    · simp

theorem natDigits_facts (m : Nat) :
    natDigits m ≠ [] ∧ (∀ c ∈ natDigits m, c.isDigit = true) ∧
      digitsToNat (natDigits m) = m := by
  refine ⟨natDigitsGo_ne_nil _ _ (Nat.lt_succ_self _), ?_, ?_⟩
  · intro c hc
    exact natDigitsGo_digits _ _ (Nat.lt_succ_self _) c hc
  · exact digitsToNat_natDigitsGo _ _ (Nat.lt_succ_self _)

theorem isDigits_natDigits (m : Nat) : isDigits (natDigits m) = true := by
  obtain ⟨h1, h2, _⟩ := natDigits_facts m
  rw [isDigits]
  simp only [Bool.and_eq_true, Bool.not_eq_eq_eq_not, Bool.not_true, List.all_eq_true]
  exact ⟨by simp [List.isEmpty_iff, h1], h2⟩

theorem parseScalar_intStr (m : Int) : parseScalar (intStr m) = .int m := by
  rw [intStr]
  split
  · next hneg =>
    rw [parseScalar]
    have hd : ("-" ++ natStr m.natAbs).data = '-' :: natDigits m.natAbs := by
      rw [String.data_append]
      rfl
    split
    · next heq => rw [hd] at heq; cases heq
    · next c cs heq =>
      rw [hd] at heq
      injection heq with h1 h2
      subst h1
      subst h2
      rw [if_pos (by simp [isDigits_natDigits])]
      rw [(natDigits_facts m.natAbs).2.2]
      next hneg2 =>
      congr 1
      simp only [Int.ofNat_eq_coe]
      omega
  · next hpos =>
    rw [parseScalar]
    have hd : (natStr m.natAbs).data = natDigits m.natAbs := rfl
    split
    · next heq =>
      rw [hd] at heq
      exact absurd heq (natDigits_facts m.natAbs).1
    · next c cs heq =>
      rw [hd] at heq
      have hcd : c.isDigit = true := by
        apply (natDigits_facts m.natAbs).2.1
        rw [heq]
        simp
      rw [if_neg (by
        simp only [Bool.and_eq_true, decide_eq_true_eq]
        rintro ⟨h1, _⟩
        exact (isDigit_ne hcd).2.1 h1)]
      rw [show (c :: cs) = natDigits m.natAbs from heq.symm]
      rw [if_pos (isDigits_natDigits m.natAbs)]
      rw [(natDigits_facts m.natAbs).2.2]
      congr 1
      simp only [Int.ofNat_eq_coe]
      omega

theorem reserved_covers :
    (∀ w ∈ boolTrueWords, w ∈ reservedWords) ∧
      (∀ w ∈ boolFalseWords, w ∈ reservedWords) ∧
      (∀ w ∈ ["null", "Null", "NULL"], w ∈ reservedWords) := by decide

theorem plainSafe_parts {s : String} (h : plainSafe s = true) :
    s ∉ reservedWords ∧ ∃ c cs, s.data = c :: cs ∧ c.isAlpha = true := by
  obtain ⟨c, cs, hd, hc⟩ := plainSafe_head h
  refine ⟨?_, c, cs, hd, hc⟩
  rw [plainSafe, hd] at h
  simp only [Bool.and_eq_true] at h
  have := h.2
  simpa using this

theorem parseScalar_plain {s : String} (h : plainSafe s = true) :
    parseScalar s = .str s := by
  obtain ⟨hres, c, cs, hd, hc⟩ := plainSafe_parts h
  have hall := (plainSafe_chars h).2
  rw [parseScalar]
  split
  · next heq => rw [hd] at heq; cases heq
  · next c2 cs2 heq =>
    rw [hd] at heq
    injection heq with h1 h2
    subst h1
    subst h2
    rw [if_neg (by
      simp only [Bool.and_eq_true, decide_eq_true_eq]
      rintro ⟨h1, _⟩
      exact (isAlpha_ne hc).2.1 h1)]
    rw [if_neg (by
      rw [isDigits]
      simp only [Bool.and_eq_true, List.all_eq_true]
      rintro ⟨_, h2⟩
      have := h2 c (by simp)
      rw [isAlpha_not_isDigit hc] at this
      cases this)]
    have hmem : ∀ l : List String, (∀ w ∈ l, w ∈ reservedWords) → l.contains s = false := by
      intro l hl
      have hns : s ∉ l := fun hm => hres (hl s hm)
      simp [hns]
    rw [hmem boolTrueWords reserved_covers.1, hmem boolFalseWords reserved_covers.2.1]
    have hnn : s ∉ nullWords := by
      intro hm
      rcases (by simpa [nullWords] using hm : s = "null" ∨ s = "Null" ∨ s = "NULL" ∨ s = "~")
        with h1 | h1 | h1 | h1
      · exact hres (by rw [h1]; decide)
      · exact hres (by rw [h1]; decide)
      · exact hres (by rw [h1]; decide)
      · have h3 : ("~".data).head? = some '~' := rfl
        rw [h1] at hd
        rw [hd] at h3
        simp at h3
        rw [h3] at hc
        exact absurd hc (by decide)
    have hnc : nullWords.contains s = false := by simp [hnn]
    rw [hnc]
    rfl

theorem splitCS_none : ∀ cs : List Char, (∀ c ∈ cs, c ≠ ':') → splitCS cs = none
  | [], _ => rfl
  | [_], _ => rfl
  | c :: c2 :: rest, h => by
    rw [splitCS, if_neg (by rintro ⟨h1, _⟩; exact h c (by simp) h1)]
    rw [splitCS_none (c2 :: rest) (fun x hx => h x (List.mem_cons_of_mem _ hx))]

theorem splitCS_endColon : ∀ kc : List Char, (∀ c ∈ kc, c ≠ ':') →
    splitCS (kc ++ [':']) = none
  | [], _ => rfl
  | [c], h => by
    rw [List.cons_append, List.nil_append, splitCS,
      if_neg (by rintro ⟨_, h2⟩; exact absurd h2 (by decide))]
    rfl
  | c :: c2 :: rest, h => by
    rw [List.cons_append, List.cons_append, splitCS,
      if_neg (by rintro ⟨h1, _⟩; exact h c (by simp) h1)]
    rw [show c2 :: (rest ++ [':']) = (c2 :: rest) ++ [':'] from rfl]
    rw [splitCS_endColon (c2 :: rest) (fun x hx => h x (List.mem_cons_of_mem _ hx))]

theorem splitCS_sep : ∀ (kc : List Char) (vc : List Char), (∀ c ∈ kc, c ≠ ':') →
    splitCS (kc ++ ':' :: ' ' :: vc) = some (kc, vc)
  | [], vc, _ => by
    rw [List.nil_append, splitCS, if_pos ⟨rfl, rfl⟩]
  | [c], vc, h => by
    rw [List.cons_append, List.nil_append, splitCS,
      if_neg (by rintro ⟨h1, _⟩; exact h c (by simp) h1)]
    rw [show (':' :: ' ' :: vc : List Char) = [] ++ ':' :: ' ' :: vc from rfl]
    rw [splitCS_sep [] vc (by simp)]
  | c :: c2 :: kc, vc, h => by
    rw [List.cons_append, List.cons_append, splitCS,
      if_neg (by rintro ⟨h1, _⟩; exact h c (by simp) h1)]
    rw [show c2 :: (kc ++ ':' :: ' ' :: vc) = (c2 :: kc) ++ ':' :: ' ' :: vc from rfl]
    rw [splitCS_sep (c2 :: kc) vc (fun x hx => h x (List.mem_cons_of_mem _ hx))]

theorem startsDash_ne_dash {t : String} {c : Char} {cs : List Char}
    (h : t.data = c :: cs) (hc : c ≠ '-') : startsDash t = false := by
  rw [startsDash]
  split
  · next heq =>
    rw [h] at heq
    injection heq with h1 _
    exact absurd h1 hc
  · rfl

theorem startsDash_ne_space {t : String} {c c2 : Char} {cs : List Char}
    (h : t.data = c :: c2 :: cs) (h2 : c2 ≠ ' ') : startsDash t = false := by
  rw [startsDash]
  split
  · next heq =>
    rw [h] at heq
    injection heq with _ h3
    injection h3 with h4 _
    exact absurd h4 h2
  · rfl

theorem endsColon_false {t : String} (h : ∀ c ∈ t.data, c ≠ ':') :
    endsColon t = false := by
  rw [endsColon]
  simp only [decide_eq_false_iff_not]
  intro hl
  obtain ⟨l2, hl2⟩ := List.getLast?_eq_some_iff.mp hl
  exact h ':' (by rw [hl2]; simp) rfl

theorem endsColon_key (k : String) : endsColon (k ++ ":") = true := by
  rw [endsColon]
  simp only [decide_eq_true_eq, String.data_append]
  exact List.getLast?_concat _

theorem intStr_chars (m : Int) : ∀ c ∈ (intStr m).data, c.isDigit = true ∨ c = '-' := by
  intro c hc
  rw [intStr] at hc
  split at hc
  · rw [String.data_append] at hc
    rcases List.mem_append.mp hc with h1 | h2
    · right
      simpa using h1
    · left
      exact natStr_digits _ c h2
  · left
    exact natStr_digits _ c hc

/-- The inline scalar text of a Sane scalar document: what it parses back
to and the shape facts the block parser relies on. -/
theorem scalar_text_facts : ∀ v : Doc, Sane v = true → isContainer v = false →
    parseScalar (yamlScalarText v) = v ∧
    (yamlScalarText v).data ≠ [] ∧
    '\n' ∉ (yamlScalarText v).data ∧
    startsDash (yamlScalarText v) = false ∧
    splitCS (yamlScalarText v).data = none ∧
    endsColon (yamlScalarText v) = false := by
  intro v hs hc
  cases v with
  | str s =>
    rw [Sane] at hs
    rw [yamlScalarText, yamlStrInline_plain hs]
    obtain ⟨c, cs, hd, hca⟩ := plainSafe_head hs
    have hall : ∀ x ∈ s.data, x.isAlpha = true ∨ x.isDigit = true := (plainSafe_chars hs).2
    refine ⟨parseScalar_plain hs, by rw [hd]; simp, plainSafe_no_nl hs,
      startsDash_ne_dash hd (isAlpha_ne hca).2.1, splitCS_none _ ?_, endsColon_false ?_⟩
    · exact fun x hx => (plainChar_ne (hall x hx)).2.2.1
    · exact fun x hx => (plainChar_ne (hall x hx)).2.2.1
  | int m =>
    rw [yamlScalarText]
    have hchars := intStr_chars m
    have hnl : '\n' ∉ (intStr m).data := by
      intro hm
      rcases hchars _ hm with h1 | h1
      · exact absurd h1 (by decide)
      · exact absurd h1 (by decide)
    have hcolon : ∀ c ∈ (intStr m).data, c ≠ ':' := by
      intro c hcm
      rcases hchars c hcm with h1 | h1
      · exact (isDigit_ne h1).2.2.1
      · rw [h1]
        decide
    have hsd : startsDash (intStr m) = false := by
      rw [intStr]
      split
      · next hneg =>
        obtain ⟨c0, cs0, hd0⟩ : ∃ c0 cs0, natDigits m.natAbs = c0 :: cs0 := by
          cases he : natDigits m.natAbs with
          | nil => exact absurd he (natDigits_facts m.natAbs).1
          | cons a b => exact ⟨a, b, rfl⟩
        have hdd : ("-" ++ natStr m.natAbs).data = '-' :: c0 :: cs0 := by
          rw [String.data_append, show ("-" : String).data = ['-'] from rfl,
            show (natStr m.natAbs).data = natDigits m.natAbs from rfl, hd0]
          rfl
        have hdig : c0.isDigit = true := by
          apply (natDigits_facts m.natAbs).2.1
          rw [hd0]
          simp
        exact startsDash_ne_space hdd (isDigit_ne hdig).1
      · next hpos =>
        obtain ⟨c0, cs0, hd0⟩ : ∃ c0 cs0, natDigits m.natAbs = c0 :: cs0 := by
          cases he : natDigits m.natAbs with
          | nil => exact absurd he (natDigits_facts m.natAbs).1
          | cons a b => exact ⟨a, b, rfl⟩
        have hdig : c0.isDigit = true := by
          apply (natDigits_facts m.natAbs).2.1
          rw [hd0]
          simp
        exact startsDash_ne_dash (show (natStr m.natAbs).data = c0 :: cs0 from hd0)
          (isDigit_ne hdig).2.1
    refine ⟨parseScalar_intStr m, ?_, hnl, hsd, splitCS_none _ hcolon, endsColon_false hcolon⟩
    rw [intStr]
    split
    · rw [String.data_append]
      simp
    · exact (natDigits_facts m.natAbs).1
  | bool b =>
    cases b
    · rw [yamlScalarText]
      refine ⟨rfl, by decide, by decide, rfl, rfl, by decide⟩
    · rw [yamlScalarText]
      refine ⟨rfl, by decide, by decide, rfl, rfl, by decide⟩
  | null =>
    refine ⟨rfl, by decide, by decide, rfl, rfl, by decide⟩
  | arr xs => rw [isContainer] at hc; cases hc
  | obj kvs => rw [isContainer] at hc; cases hc

theorem startsDash_dash (t : String) : startsDash ("- " ++ t) = true := rfl

theorem dashStrip_dash (t : String) : dashStrip ("- " ++ t) = t := by
  rw [dashStrip, String.data_append]
  rfl

theorem keyHead_data {k : String} (X : String) (h : plainSafe k = true) :
    ∃ c cs, (k ++ X).data = c :: cs ∧ c.isAlpha = true := by
  obtain ⟨c, cs, hd, hc⟩ := plainSafe_head h
  exact ⟨c, cs ++ X.data, by rw [String.data_append, hd]; rfl, hc⟩

theorem no_nl_append {a b : String} (ha : '\n' ∉ a.data) (hb : '\n' ∉ b.data) :
    '\n' ∉ (a ++ b).data := by
  rw [String.data_append]
  intro hm
  rcases List.mem_append.mp hm with h | h
  · exact ha h
  · exact hb h

theorem goodLine_mk {n : Nat} {t : String} (c : Char) (cs : List Char)
    (hd : t.data = c :: cs) (hc : c ≠ ' ') (hnl : '\n' ∉ t.data) : goodLine ⟨n, t⟩ := by
  refine ⟨hnl, ?_⟩
  rw [show (Line.mk n t).text = t from rfl, hd]
  exact hc

/-- A Sane scalar entry is a single line: the key, a colon-space, and the
scalar's inline text. -/
theorem entryLines_scalar (n : Nat) (k : String) (v : Doc) (hk : plainSafe k = true)
    (hs : Sane v = true) (hc : isContainer v = false) :
    entryLines n k v = [⟨n, k ++ ": " ++ yamlScalarText v⟩] := by
  cases v with
  | str s =>
    rw [Sane] at hs
    rw [entryLines, represent_text_plain hs, yamlStrInline_plain hk]
    simp [yamlScalarText]
  | int m => rw [entryLines, yamlStrInline_plain hk]; rfl
  | bool b => rw [entryLines, yamlStrInline_plain hk]; rfl
  | null =>
    rw [entryLines, yamlStrInline_plain hk, String.append_assoc]
    rfl
  | arr xs => rw [isContainer] at hc; cases hc
  | obj kvs => rw [isContainer] at hc; cases hc

/-- A Sane scalar sequence item is a single dash line. -/
theorem itemLines_scalar (n : Nat) (v : Doc) (hs : Sane v = true)
    (hc : isContainer v = false) :
    itemLines n v = [⟨n, "- " ++ yamlScalarText v⟩] := by
  cases v with
  | str s =>
    rw [Sane] at hs
    rw [itemLines, represent_text_plain hs]
    simp [yamlScalarText]
  | int m => rw [itemLines]; rfl
  | bool b => rw [itemLines]; rfl
  | null => rw [itemLines]; rfl
  | arr xs => rw [isContainer] at hc; cases hc
  | obj kvs => rw [isContainer] at hc; cases hc

/-- Every sequence item block opens with a dash line at its own
indentation. -/
theorem itemLines_head : ∀ (n : Nat) (x : Doc),
    ∃ t rest2, itemLines n x = Line.mk n ("- " ++ t) :: rest2
  | n, .str s => by
    rw [itemLines]
    cases hc : s.data.contains '\n'
    · simp only [represent_text, hc]
      exact ⟨yamlStrInline s, [], rfl⟩
    · simp only [represent_text, hc]
      exact ⟨"|" ++ chompOf s, (blockContentLines s).map (fun t => ⟨n + 2, t⟩), rfl⟩
  | n, .int m => ⟨intStr m, [], by rw [itemLines]⟩
  | n, .bool b => ⟨if b then "true" else "false", [], by rw [itemLines]⟩
  | n, .null => ⟨"null", [], rfl⟩
  | n, .arr [] => ⟨"[]", [], rfl⟩
  | n, .arr (y :: ys) => by
    rw [itemLines]
    obtain ⟨t0, r0, h0⟩ := itemLines_head (n + 2) y
    rw [seqLines, h0, List.cons_append, dashFirst]
    exact ⟨"- " ++ t0, _, rfl⟩
  | n, .obj [] => ⟨"\x7b\x7d", [], rfl⟩
  | n, .obj ((k, v) :: kvs) => by
    rw [itemLines]
    obtain ⟨t0, r0, h0⟩ := entryLines_head (n + 2) k v
    rw [mapLines, h0, List.cons_append, dashFirst]
    exact ⟨yamlStrInline k ++ t0, _, rfl⟩

theorem endsBelow_mapLines {m n : Nat} (kvs : List (String × Doc)) (rest : List Line)
    (hm : n < m) (hr : endsBelow m rest) : endsBelow m (mapLines n kvs ++ rest) := by
  cases kvs with
  | nil => exact hr
  | cons kv tail =>
    obtain ⟨k, v⟩ := kv
    rw [mapLines]
    obtain ⟨t0, r0, h0⟩ := entryLines_head n k v
    rw [h0, List.cons_append, List.cons_append]
    exact hm

theorem endsBelow_seqLines {m n : Nat} (xs : List Doc) (rest : List Line)
    (hm : n < m) (hr : endsBelow m rest) : endsBelow m (seqLines n xs ++ rest) := by
  cases xs with
  | nil => exact hr
  | cons x tail =>
    rw [seqLines]
    obtain ⟨t0, r0, h0⟩ := itemLines_head n x
    rw [h0, List.cons_append, List.cons_append]
    exact hm

mutual

theorem mapLines_good : ∀ (n : Nat) (kvs : List (String × Doc)), sanePairs kvs = true →
    ∀ l ∈ mapLines n kvs, goodLine l
  | _, [], _, l, hl => by rw [mapLines] at hl; cases hl
  | n, (k, v) :: rest, hs, l, hl => by
    rw [sanePairs] at hs
    simp only [Bool.and_eq_true] at hs
    rw [mapLines] at hl
    rcases List.mem_append.mp hl with h1 | h2
    · exact entryLines_good n k v hs.1.1 hs.1.2 l h1
    · exact mapLines_good n rest hs.2 l h2

theorem entryLines_good : ∀ (n : Nat) (k : String) (v : Doc), plainSafe k = true →
    Sane v = true → ∀ l ∈ entryLines n k v, goodLine l
  | n, k, .str s, hk, hv, l, hl => by
    rw [entryLines_scalar n k (.str s) hk hv rfl] at hl
    simp only [List.mem_singleton] at hl
    subst hl
    obtain ⟨c, cs, hd, hca⟩ := keyHead_data (": " ++ yamlScalarText (.str s)) hk
    refine goodLine_mk c cs (by rw [String.append_assoc]; exact hd) (isAlpha_ne hca).1 ?_
    rw [String.append_assoc]
    exact no_nl_append (plainSafe_no_nl hk)
      (no_nl_append (by decide) (scalar_text_facts (.str s) hv rfl).2.2.1)
  | n, k, .int m, hk, hv, l, hl => by
    rw [entryLines_scalar n k (.int m) hk hv rfl] at hl
    simp only [List.mem_singleton] at hl
    subst hl
    obtain ⟨c, cs, hd, hca⟩ := keyHead_data (": " ++ yamlScalarText (.int m)) hk
    refine goodLine_mk c cs (by rw [String.append_assoc]; exact hd) (isAlpha_ne hca).1 ?_
    rw [String.append_assoc]
    exact no_nl_append (plainSafe_no_nl hk)
      (no_nl_append (by decide) (scalar_text_facts (.int m) hv rfl).2.2.1)
  | n, k, .bool b, hk, hv, l, hl => by
    rw [entryLines_scalar n k (.bool b) hk hv rfl] at hl
    simp only [List.mem_singleton] at hl
    subst hl
    obtain ⟨c, cs, hd, hca⟩ := keyHead_data (": " ++ yamlScalarText (.bool b)) hk
    refine goodLine_mk c cs (by rw [String.append_assoc]; exact hd) (isAlpha_ne hca).1 ?_
    rw [String.append_assoc]
    exact no_nl_append (plainSafe_no_nl hk)
      (no_nl_append (by decide) (scalar_text_facts (.bool b) hv rfl).2.2.1)
  | n, k, .null, hk, hv, l, hl => by
    rw [entryLines_scalar n k .null hk hv rfl] at hl
    simp only [List.mem_singleton] at hl
    subst hl
    obtain ⟨c, cs, hd, hca⟩ := keyHead_data (": " ++ yamlScalarText .null) hk
    refine goodLine_mk c cs (by rw [String.append_assoc]; exact hd) (isAlpha_ne hca).1 ?_
    rw [String.append_assoc]
    exact no_nl_append (plainSafe_no_nl hk)
      (no_nl_append (by decide) (scalar_text_facts .null hv rfl).2.2.1)
  | n, k, .arr [], hk, hv, l, hl => by rw [Sane] at hv; simp at hv
  | n, k, .arr (x :: xs), hk, hv, l, hl => by
    rw [Sane] at hv
    simp only [Bool.and_eq_true] at hv
    rw [entryLines] at hl
    rcases List.mem_cons.mp hl with h1 | h2
    · subst h1
      obtain ⟨c, cs, hd, hca⟩ := keyHead_data ":" hk
      exact goodLine_mk c cs (by rw [yamlStrInline_plain hk]; exact hd) (isAlpha_ne hca).1
        (by rw [yamlStrInline_plain hk]
            exact no_nl_append (plainSafe_no_nl hk) (by decide))
    · exact seqLines_good (n + 2) (x :: xs) hv.2 l h2
  | n, k, .obj [], hk, hv, l, hl => by rw [Sane] at hv; simp at hv
  | n, k, .obj (kv :: kvs), hk, hv, l, hl => by
    rw [Sane] at hv
    simp only [Bool.and_eq_true] at hv
    rw [entryLines] at hl
    rcases List.mem_cons.mp hl with h1 | h2
    · subst h1
      obtain ⟨c, cs, hd, hca⟩ := keyHead_data ":" hk
      exact goodLine_mk c cs (by rw [yamlStrInline_plain hk]; exact hd) (isAlpha_ne hca).1
        (by rw [yamlStrInline_plain hk]
            exact no_nl_append (plainSafe_no_nl hk) (by decide))
    · exact mapLines_good (n + 2) (kv :: kvs) hv.2 l h2

theorem seqLines_good : ∀ (n : Nat) (xs : List Doc), saneList xs = true →
    ∀ l ∈ seqLines n xs, goodLine l
  | _, [], _, l, hl => by rw [seqLines] at hl; cases hl
  | n, x :: rest, hs, l, hl => by
    rw [saneList] at hs
    simp only [Bool.and_eq_true] at hs
    rw [seqLines] at hl
    rcases List.mem_append.mp hl with h1 | h2
    · exact itemLines_good n x hs.1 l h1
    · exact seqLines_good n rest hs.2 l h2

theorem itemLines_good : ∀ (n : Nat) (x : Doc), Sane x = true →
    ∀ l ∈ itemLines n x, goodLine l
  | n, .str s, hv, l, hl => by
    rw [itemLines_scalar n (.str s) hv rfl] at hl
    simp only [List.mem_singleton] at hl
    subst hl
    refine goodLine_mk '-' (' ' :: (yamlScalarText (.str s)).data)
      (by rw [String.data_append]; rfl) (by decide)
      (no_nl_append (by decide) (scalar_text_facts (.str s) hv rfl).2.2.1)
  | n, .int m, hv, l, hl => by
    rw [itemLines_scalar n (.int m) hv rfl] at hl
    simp only [List.mem_singleton] at hl
    subst hl
    refine goodLine_mk '-' (' ' :: (yamlScalarText (.int m)).data)
      (by rw [String.data_append]; rfl) (by decide)
      (no_nl_append (by decide) (scalar_text_facts (.int m) hv rfl).2.2.1)
  | n, .bool b, hv, l, hl => by
    rw [itemLines_scalar n (.bool b) hv rfl] at hl
    simp only [List.mem_singleton] at hl
    subst hl
    refine goodLine_mk '-' (' ' :: (yamlScalarText (.bool b)).data)
      (by rw [String.data_append]; rfl) (by decide)
      (no_nl_append (by decide) (scalar_text_facts (.bool b) hv rfl).2.2.1)
  | n, .null, hv, l, hl => by
    rw [itemLines_scalar n .null hv rfl] at hl
    simp only [List.mem_singleton] at hl
    subst hl
    refine goodLine_mk '-' (' ' :: (yamlScalarText .null).data)
      (by rw [String.data_append]; rfl) (by decide)
      (no_nl_append (by decide) (scalar_text_facts .null hv rfl).2.2.1)
  | n, .arr [], hv, l, hl => by rw [Sane] at hv; simp at hv
  | n, .arr (y :: ys), hv, l, hl => by
    rw [Sane] at hv
    simp only [Bool.and_eq_true] at hv
    rw [itemLines] at hl
    cases hch : seqLines (n + 2) (y :: ys) with
    | nil => rw [hch, dashFirst] at hl; cases hl
    | cons c0 cs0 =>
      rw [hch, dashFirst] at hl
      rcases List.mem_cons.mp hl with h1 | h2
      · subst h1
        have hg0 := seqLines_good (n + 2) (y :: ys) hv.2 c0 (by rw [hch]; simp)
        refine goodLine_mk '-' (' ' :: c0.text.data)
          (by rw [String.data_append]; rfl) (by decide)
          (no_nl_append (by decide) hg0.1)
      · exact seqLines_good (n + 2) (y :: ys) hv.2 l
          (by rw [hch]; exact List.mem_cons_of_mem _ h2)
  | n, .obj [], hv, l, hl => by rw [Sane] at hv; simp at hv
  | n, .obj (kv :: kvs), hv, l, hl => by
    rw [Sane] at hv
    simp only [Bool.and_eq_true] at hv
    rw [itemLines] at hl
    cases hch : mapLines (n + 2) (kv :: kvs) with
    | nil => rw [hch, dashFirst] at hl; cases hl
    | cons c0 cs0 =>
      rw [hch, dashFirst] at hl
      rcases List.mem_cons.mp hl with h1 | h2
      · subst h1
        have hg0 := mapLines_good (n + 2) (kv :: kvs) hv.2 c0 (by rw [hch]; simp)
        refine goodLine_mk '-' (' ' :: c0.text.data)
          (by rw [String.data_append]; rfl) (by decide)
          (no_nl_append (by decide) hg0.1)
      · exact mapLines_good (n + 2) (kv :: kvs) hv.2 l
          (by rw [hch]; exact List.mem_cons_of_mem _ h2)

end

theorem key_no_colon {k : String} (hk : plainSafe k = true) : ∀ c ∈ k.data, c ≠ ':' :=
  fun c hc => (plainChar_ne ((plainSafe_chars hk).2 c hc)).2.2.1

theorem endsBelow_mono {n m : Nat} (h : n ≤ m) : ∀ ls, endsBelow n ls → endsBelow m ls
  | [], _ => trivial
  | _ :: _, hb => lt_of_lt_of_le hb h

theorem entryLines_container (n : Nat) (k : String) (v : Doc) (hk : plainSafe k = true)
    (hv : Sane v = true) (hc : isContainer v = true) :
    entryLines n k v = Line.mk n (k ++ ":") :: blockLinesOf (n + 2) v := by
  cases v with
  | str s => exact nomatch hc
  | int m => exact nomatch hc
  | bool b => exact nomatch hc
  | null => exact nomatch hc
  | arr xs =>
    cases xs with
    | nil => rw [Sane] at hv; simp at hv
    | cons x xs2 => rw [entryLines, yamlStrInline_plain hk, blockLinesOf]
  | obj kvs =>
    cases kvs with
    | nil => rw [Sane] at hv; simp at hv
    | cons kv kvs2 => rw [entryLines, yamlStrInline_plain hk, blockLinesOf]

theorem itemLines_container (n : Nat) (x : Doc) (hv : Sane x = true)
    (hc : isContainer x = true) :
    itemLines n x = dashFirst n (blockLinesOf (n + 2) x) := by
  cases x with
  | str s => exact nomatch hc
  | int m => exact nomatch hc
  | bool b => exact nomatch hc
  | null => exact nomatch hc
  | arr xs =>
    cases xs with
    | nil => rw [Sane] at hv; simp at hv
    | cons y ys => rw [itemLines, blockLinesOf]
  | obj kvs =>
    cases kvs with
    | nil => rw [Sane] at hv; simp at hv
    | cons kv kvs2 => rw [itemLines, blockLinesOf]

theorem blockLines_head (n : Nat) (x : Doc) (hc : isContainer x = true)
    (hv : Sane x = true) : ∃ t tail, blockLinesOf n x = Line.mk n t :: tail := by
  cases x with
  | str s => exact nomatch hc
  | int m => exact nomatch hc
  | bool b => exact nomatch hc
  | null => exact nomatch hc
  | arr xs =>
    cases xs with
    | nil => rw [Sane] at hv; simp at hv
    | cons y ys =>
      obtain ⟨t0, r0, h0⟩ := itemLines_head n y
      rw [blockLinesOf, seqLines, h0, List.cons_append]
      exact ⟨"- " ++ t0, _, rfl⟩
  | obj kvs =>
    cases kvs with
    | nil => rw [Sane] at hv; simp at hv
    | cons kv kvs2 =>
      obtain ⟨k, v⟩ := kv
      obtain ⟨t0, r0, h0⟩ := entryLines_head n k v
      rw [blockLinesOf, mapLines, h0, List.cons_append]
      exact ⟨yamlStrInline k ++ t0, _, rfl⟩

theorem entry_scalar_data (k w : String) :
    (k ++ ": " ++ w).data = k.data ++ ':' :: ' ' :: w.data := by
  rw [String.data_append, String.data_append, List.append_assoc]
  rfl

theorem entry_colon_data (k : String) : (k ++ ":").data = k.data ++ [':'] := by
  rw [String.data_append]

theorem keyOf_key (k : String) : keyOf (k ++ ":") = k := by
  rw [keyOf, entry_colon_data, List.dropLast_concat]

theorem entry_scalar_facts (k : String) (v : Doc) (hk : plainSafe k = true)
    (hv : Sane v = true) (hc : isContainer v = false) :
    startsDash (k ++ ": " ++ yamlScalarText v) = false ∧
    splitCS (k ++ ": " ++ yamlScalarText v).data =
      some (k.data, (yamlScalarText v).data) := by
  obtain ⟨c, cs, hd, hca⟩ := plainSafe_head hk
  constructor
  · have hdd : (k ++ ": " ++ yamlScalarText v).data =
        c :: (cs ++ ':' :: ' ' :: (yamlScalarText v).data) := by
      rw [entry_scalar_data, hd]
      rfl
    exact startsDash_ne_dash hdd (isAlpha_ne hca).2.1
  · rw [entry_scalar_data]
    exact splitCS_sep _ _ (key_no_colon hk)

theorem entry_colon_facts (k : String) (hk : plainSafe k = true) :
    startsDash (k ++ ":") = false ∧ splitCS (k ++ ":").data = none ∧
    endsColon (k ++ ":") = true := by
  obtain ⟨c, cs, hd, hca⟩ := plainSafe_head hk
  refine ⟨?_, ?_, endsColon_key k⟩
  · have hdd : (k ++ ":").data = c :: (cs ++ [':']) := by
      rw [entry_colon_data, hd]
      rfl
    exact startsDash_ne_dash hdd (isAlpha_ne hca).2.1
  · rw [entry_colon_data]
    exact splitCS_endColon _ (key_no_colon hk)

theorem parseNode_mapStart {fuel n : Nat} {t : String} {ls : List Line}
    (hd : startsDash t = false)
    (hok : (splitCS t.data).isSome = true ∨ endsColon t = true) :
    parseNode (fuel + 1) n (Line.mk n t :: ls) =
      parseMapEntries fuel n (Line.mk n t :: ls) [] := by
  rw [parseNode, if_pos (show (Line.mk n t).indent = n from rfl)]
  rcases hok with h1 | h1 <;> simp [hd, h1]

theorem parseNode_seqStart {fuel n : Nat} {t : String} {ls : List Line}
    (hd : startsDash t = true) :
    parseNode (fuel + 1) n (Line.mk n t :: ls) =
      parseSeqItems fuel n (Line.mk n t :: ls) [] := by
  rw [parseNode, if_pos (show (Line.mk n t).indent = n from rfl)]
  simp [hd]

theorem parseNode_scalarStart {fuel n : Nat} {t : String} {ls : List Line}
    (hd : startsDash t = false)
    (hs : splitCS t.data = none) (he : endsColon t = false) :
    parseNode (fuel + 1) n (Line.mk n t :: ls) = some (parseScalar t, ls) := by
  rw [parseNode, if_pos (show (Line.mk n t).indent = n from rfl)]
  simp [hd, hs, he]

theorem parseMapEntries_scalarStep {fuel n : Nat} {t : String} {ls : List Line}
    {acc : List (String × Doc)} {kc vc : List Char}
    (hd : startsDash t = false) (hs : splitCS t.data = some (kc, vc)) :
    parseMapEntries (fuel + 1) n (Line.mk n t :: ls) acc =
      parseMapEntries fuel n ls (acc ++ [(String.mk kc, parseScalar (String.mk vc))]) := by
  rw [parseMapEntries, if_pos (by simp [hd]), hs]

theorem parseMapEntries_nestedStep {fuel n : Nat} {t : String} {ls : List Line}
    {acc : List (String × Doc)}
    (hd : startsDash t = false) (hs : splitCS t.data = none) (he : endsColon t = true) :
    parseMapEntries (fuel + 1) n (Line.mk n t :: ls) acc =
      match parseNode fuel (n + 2) ls with
      | some (child, rest2) => parseMapEntries fuel n rest2 (acc ++ [(keyOf t, child)])
      | none => none := by
  rw [parseMapEntries, if_pos (by simp [hd]), hs]
  simp [he]

theorem parseMapEntries_stop {fuel n : Nat} {l : Line} {ls : List Line}
    {acc : List (String × Doc)} (h : l.indent < n) :
    parseMapEntries (fuel + 1) n (l :: ls) acc = some (.obj acc, l :: ls) := by
  rw [parseMapEntries,
    if_neg (by simp only [Bool.and_eq_true, decide_eq_true_eq]; rintro ⟨h1, _⟩; omega)]

theorem parseMapEntries_nilStep {fuel n : Nat} {acc : List (String × Doc)} :
    parseMapEntries (fuel + 1) n [] acc = some (.obj acc, []) := rfl

theorem parseSeqItems_step {fuel n : Nat} {t : String} {ls : List Line} {acc : List Doc}
    (hd : startsDash t = true) :
    parseSeqItems (fuel + 1) n (Line.mk n t :: ls) acc =
      match parseNode fuel (n + 2) (Line.mk (n + 2) (dashStrip t) :: ls) with
      | some (item, rest2) => parseSeqItems fuel n rest2 (acc ++ [item])
      | none => none := by
  rw [parseSeqItems, if_pos (by simp [hd])]

theorem parseSeqItems_stop {fuel n : Nat} {l : Line} {ls : List Line} {acc : List Doc}
    (h : l.indent < n) :
    parseSeqItems (fuel + 1) n (l :: ls) acc = some (.arr acc, l :: ls) := by
  rw [parseSeqItems,
    if_neg (by simp only [Bool.and_eq_true, decide_eq_true_eq]; rintro ⟨h1, _⟩; omega)]

theorem parseSeqItems_nilStep {fuel n : Nat} {acc : List Doc} :
    parseSeqItems (fuel + 1) n [] acc = some (.arr acc, []) := rfl

theorem parseMapEntries_nestedOk {fuel n : Nat} {t : String} {ls rest2 : List Line}
    {acc : List (String × Doc)} {child : Doc}
    (hd : startsDash t = false) (hs : splitCS t.data = none) (he : endsColon t = true)
    (hn : parseNode fuel (n + 2) ls = some (child, rest2)) :
    parseMapEntries (fuel + 1) n (Line.mk n t :: ls) acc =
      parseMapEntries fuel n rest2 (acc ++ [(keyOf t, child)]) := by
  rw [parseMapEntries_nestedStep hd hs he, hn]

theorem parseSeqItems_stepOk {fuel n : Nat} {t : String} {ls rest2 : List Line}
    {acc : List Doc} {item : Doc}
    (hd : startsDash t = true)
    (hn : parseNode fuel (n + 2) (Line.mk (n + 2) (dashStrip t) :: ls) =
      some (item, rest2)) :
    parseSeqItems (fuel + 1) n (Line.mk n t :: ls) acc =
      parseSeqItems fuel n rest2 (acc ++ [item]) := by
  rw [parseSeqItems_step hd, hn]

theorem mapLines_start (n : Nat) (k : String) (w : Doc) (kvs2 : List (String × Doc))
    (rest : List Line) (hk : plainSafe k = true) (hw : Sane w = true) :
    ∃ t ls, mapLines n ((k, w) :: kvs2) ++ rest = Line.mk n t :: ls ∧
      startsDash t = false ∧ ((splitCS t.data).isSome = true ∨ endsColon t = true) := by
  cases hic : isContainer w with
  | false =>
    obtain ⟨hsd, hspl⟩ := entry_scalar_facts k w hk hw hic
    exact ⟨k ++ ": " ++ yamlScalarText w, mapLines n kvs2 ++ rest,
      by rw [mapLines, entryLines_scalar n k w hk hw hic, List.append_assoc,
        List.singleton_append],
      hsd, Or.inl (by rw [hspl]; rfl)⟩
  | true =>
    obtain ⟨hsd, hspl, hec⟩ := entry_colon_facts k hk
    exact ⟨k ++ ":", blockLinesOf (n + 2) w ++ (mapLines n kvs2 ++ rest),
      by rw [mapLines, entryLines_container n k w hk hw hic, List.append_assoc,
        List.cons_append],
      hsd, Or.inr hec⟩

mutual

theorem parseNode_rt : ∀ (v : Doc) (n fuel : Nat) (rest : List Line),
    Sane v = true → isContainer v = true → endsBelow n rest →
    linesSize (blockLinesOf n v ++ rest) + 2 ≤ fuel →
    parseNode fuel n (blockLinesOf n v ++ rest) = some (v, rest)
  | .str _, _, _, _, _, hc, _, _ => nomatch hc
  | .int _, _, _, _, _, hc, _, _ => nomatch hc
  | .bool _, _, _, _, _, hc, _, _ => nomatch hc
  | .null, _, _, _, _, hc, _, _ => nomatch hc
  | .obj kvs, n, fuel, rest, hv, _, hb, hf => by
    rw [Sane] at hv
    simp only [Bool.and_eq_true] at hv
    cases kvs with
    | nil => simp at hv
    | cons kv kvs2 =>
      obtain ⟨k, w⟩ := kv
      have hpairs : sanePairs ((k, w) :: kvs2) = true := hv.2
      have hkw : plainSafe k = true ∧ Sane w = true := by
        have h := hpairs
        rw [sanePairs] at h
        simp only [Bool.and_eq_true] at h
        exact h.1
      rw [blockLinesOf] at hf ⊢
      cases fuel with
      | zero => exact absurd hf (by omega)
      | succ f =>
        obtain ⟨t, ls0, hL, hsd, hok⟩ := mapLines_start n k w kvs2 rest hkw.1 hkw.2
        rw [hL, parseNode_mapStart hsd hok, ← hL]
        exact parseMap_rt ((k, w) :: kvs2) n f rest [] hpairs hb (by omega)
  | .arr xs, n, fuel, rest, hv, _, hb, hf => by
    rw [Sane] at hv
    simp only [Bool.and_eq_true] at hv
    cases xs with
    | nil => simp at hv
    | cons x xs2 =>
      rw [blockLinesOf] at hf ⊢
      cases fuel with
      | zero => exact absurd hf (by omega)
      | succ f =>
        obtain ⟨t0, r0, h0⟩ := itemLines_head n x
        have hL : seqLines n (x :: xs2) ++ rest =
            Line.mk n ("- " ++ t0) :: (r0 ++ (seqLines n xs2 ++ rest)) := by
          rw [seqLines, h0, List.append_assoc, List.cons_append]
        rw [hL, parseNode_seqStart (startsDash_dash t0), ← hL]
        exact parseSeq_rt (x :: xs2) n f rest [] hv.2 hb (by omega)

theorem parseMap_rt : ∀ (kvs : List (String × Doc)) (n fuel : Nat) (rest : List Line)
    (acc : List (String × Doc)),
    sanePairs kvs = true → endsBelow n rest →
    linesSize (mapLines n kvs ++ rest) + 1 ≤ fuel →
    parseMapEntries fuel n (mapLines n kvs ++ rest) acc =
      some (.obj (acc ++ kvs), rest)
  | [], n, fuel, rest, acc, _, hb, hf => by
    rw [mapLines, List.nil_append] at hf ⊢
    cases fuel with
    | zero => exact absurd hf (by omega)
    | succ f =>
      cases rest with
      | nil => rw [parseMapEntries_nilStep, List.append_nil]
      | cons l rest2 =>
        have hlt : l.indent < n := hb
        rw [parseMapEntries_stop hlt, List.append_nil]
  | (k, v) :: kvs, n, fuel, rest, acc, hs, hb, hf => by
    rw [sanePairs] at hs
    simp only [Bool.and_eq_true] at hs
    cases hic : isContainer v with
    | false =>
      have hL : mapLines n ((k, v) :: kvs) ++ rest =
          Line.mk n (k ++ ": " ++ yamlScalarText v) :: (mapLines n kvs ++ rest) := by
        rw [mapLines, entryLines_scalar n k v hs.1.1 hs.1.2 hic, List.append_assoc,
          List.singleton_append]
      rw [hL] at hf ⊢
      rw [linesSize_cons] at hf
      cases fuel with
      | zero => exact absurd hf (by omega)
      | succ f =>
        obtain ⟨hsd, hspl⟩ := entry_scalar_facts k v hs.1.1 hs.1.2 hic
        rw [parseMapEntries_scalarStep hsd hspl]
        have hkv : (String.mk k.data, parseScalar (String.mk (yamlScalarText v).data)) =
            (k, v) := by
          have h1 : parseScalar (String.mk (yamlScalarText v).data) = v :=
            (scalar_text_facts v hs.1.2 hic).1
          rw [h1]
        rw [hkv]
        have hrec := parseMap_rt kvs n f rest (acc ++ [(k, v)]) hs.2 hb (by omega)
        rw [List.append_assoc] at hrec
        exact hrec
    | true =>
      have hL : mapLines n ((k, v) :: kvs) ++ rest =
          Line.mk n (k ++ ":") :: (blockLinesOf (n + 2) v ++ (mapLines n kvs ++ rest)) := by
        rw [mapLines, entryLines_container n k v hs.1.1 hs.1.2 hic, List.append_assoc,
          List.cons_append]
      rw [hL] at hf ⊢
      rw [linesSize_cons, linesSize_append] at hf
      cases fuel with
      | zero => exact absurd hf (by omega)
      | succ f =>
        obtain ⟨hsd, hspl, hec⟩ := entry_colon_facts k hs.1.1
        have hnode : parseNode f (n + 2)
            (blockLinesOf (n + 2) v ++ (mapLines n kvs ++ rest)) =
            some (v, mapLines n kvs ++ rest) :=
          parseNode_rt v (n + 2) f (mapLines n kvs ++ rest) hs.1.2 hic
            (endsBelow_mapLines kvs rest (by omega) (endsBelow_mono (by omega) rest hb))
            (by rw [linesSize_append]; omega)
        rw [parseMapEntries_nestedOk hsd hspl hec hnode, keyOf_key]
        have hrec := parseMap_rt kvs n f rest (acc ++ [(k, v)]) hs.2 hb (by omega)
        rw [List.append_assoc] at hrec
        exact hrec

theorem parseSeq_rt : ∀ (xs : List Doc) (n fuel : Nat) (rest : List Line)
    (acc : List Doc),
    saneList xs = true → endsBelow n rest →
    linesSize (seqLines n xs ++ rest) + 1 ≤ fuel →
    parseSeqItems fuel n (seqLines n xs ++ rest) acc = some (.arr (acc ++ xs), rest)
  | [], n, fuel, rest, acc, _, hb, hf => by
    rw [seqLines, List.nil_append] at hf ⊢
    cases fuel with
    | zero => exact absurd hf (by omega)
    | succ f =>
      cases rest with
      | nil => rw [parseSeqItems_nilStep, List.append_nil]
      | cons l rest2 =>
        have hlt : l.indent < n := hb
        rw [parseSeqItems_stop hlt, List.append_nil]
  | x :: xs, n, fuel, rest, acc, hs, hb, hf => by
    rw [saneList] at hs
    simp only [Bool.and_eq_true] at hs
    cases hic : isContainer x with
    | false =>
      have hL : seqLines n (x :: xs) ++ rest =
          Line.mk n ("- " ++ yamlScalarText x) :: (seqLines n xs ++ rest) := by
        rw [seqLines, itemLines_scalar n x hs.1 hic, List.append_assoc,
          List.singleton_append]
      rw [hL] at hf ⊢
      rw [linesSize_cons] at hf
      cases fuel with
      | zero => exact absurd hf (by omega)
      | succ f =>
        cases f with
        | zero => exact absurd hf (by omega)
        | succ f2 =>
          obtain ⟨hps, hne, hnl, hsd, hspl, hec⟩ := scalar_text_facts x hs.1 hic
          have hnode : parseNode (f2 + 1) (n + 2)
              (Line.mk (n + 2) (dashStrip ("- " ++ yamlScalarText x)) ::
                (seqLines n xs ++ rest)) =
              some (x, seqLines n xs ++ rest) := by
            rw [dashStrip_dash, parseNode_scalarStart hsd hspl hec]
            exact congrArg (fun d => some (d, seqLines n xs ++ rest)) hps
          rw [parseSeqItems_stepOk (startsDash_dash _) hnode]
          have hrec := parseSeq_rt xs n (f2 + 1) rest (acc ++ [x]) hs.2 hb (by omega)
          rw [List.append_assoc] at hrec
          exact hrec
    | true =>
      obtain ⟨t0, tail0, hblk⟩ := blockLines_head (n + 2) x hic hs.1
      have hL : seqLines n (x :: xs) ++ rest =
          Line.mk n ("- " ++ t0) :: (tail0 ++ (seqLines n xs ++ rest)) := by
        rw [seqLines, itemLines_container n x hs.1 hic, hblk, dashFirst,
          List.append_assoc, List.cons_append]
      rw [hL] at hf ⊢
      rw [linesSize_cons, linesSize_append, String.length_append,
        show ("- " : String).length = 2 from rfl] at hf
      cases fuel with
      | zero => exact absurd hf (by omega)
      | succ f =>
        cases f with
        | zero => exact absurd hf (by omega)
        | succ f2 =>
          have hnode : parseNode (f2 + 1) (n + 2)
              (Line.mk (n + 2) (dashStrip ("- " ++ t0)) ::
                (tail0 ++ (seqLines n xs ++ rest))) =
              some (x, seqLines n xs ++ rest) := by
            rw [dashStrip_dash,
              show Line.mk (n + 2) t0 :: (tail0 ++ (seqLines n xs ++ rest)) =
                blockLinesOf (n + 2) x ++ (seqLines n xs ++ rest) from
                by rw [hblk, List.cons_append]]
            exact parseNode_rt x (n + 2) (f2 + 1) (seqLines n xs ++ rest) hs.1 hic
              (endsBelow_seqLines xs rest (by omega) (endsBelow_mono (by omega) rest hb))
              (by rw [hblk, List.cons_append, linesSize_cons, linesSize_append,
                show (Line.mk (n + 2) t0).text.length = t0.length from rfl]
                  omega)
          rw [parseSeqItems_stepOk (startsDash_dash _) hnode]
          have hrec := parseSeq_rt xs n (f2 + 1) rest (acc ++ [x]) hs.2 hb (by omega)
          rw [List.append_assoc] at hrec
          exact hrec

end

/-- C7: For every document built of nested ordered mappings, sequences and
scalars (the Sane fragment: plain keys and strings, non-empty containers,
a container at the root), parsing the YAML dumper's own output with the
order-preserving loader reproduces a document equal to the original in
both structure and mapping key order:
yaml_sane_load (yaml_sane_dump d false) = some d. -/
theorem yaml_round_trip (d : Doc) (hs : Sane d = true) (hc : isContainer d = true) :
    yaml_sane_load (yaml_sane_dump d false) = some d := by
  have hroot : yamlRoot d = renderLines (blockLinesOf 0 d) := by
    cases d with
    | str s => exact nomatch hc
    | int m => exact nomatch hc
    | bool b => exact nomatch hc
    | null => exact nomatch hc
    | arr xs =>
      cases xs with
      | nil => rw [Sane] at hs; simp at hs
      | cons x xs2 => rw [yamlRoot, blockLinesOf]
    | obj kvs =>
      cases kvs with
      | nil => rw [Sane] at hs; simp at hs
      | cons kv kvs2 => rw [yamlRoot, blockLinesOf]
  have hgood : ∀ l ∈ blockLinesOf 0 d, goodLine l := by
    cases d with
    | str s => exact nomatch hc
    | int m => exact nomatch hc
    | bool b => exact nomatch hc
    | null => exact nomatch hc
    | arr xs =>
      rw [Sane] at hs
      simp only [Bool.and_eq_true] at hs
      exact seqLines_good 0 xs hs.2
    | obj kvs =>
      rw [Sane] at hs
      simp only [Bool.and_eq_true] at hs
      exact mapLines_good 0 kvs hs.2
  have hls : toLines (renderLines (blockLinesOf 0 d)) = blockLinesOf 0 d :=
    toLines_renderLines _ hgood
  have hpn : parseNode (linesSize (blockLinesOf 0 d) + 2) 0 (blockLinesOf 0 d) =
      some (d, []) := by
    have h := parseNode_rt d 0 (linesSize (blockLinesOf 0 d) + 2) [] hs hc trivial
      (by rw [List.append_nil])
    rw [List.append_nil] at h
    exact h
  rw [yaml_sane_dump, hroot, yaml_sane_load]
  simp only [hls, hpn]

/-- A concrete nested document certifying the round trip: a mapping with a
nested mapping, a sequence holding a scalar, a nested mapping and a nested
sequence, a negative integer, and a null. -/
theorem yaml_round_trip_witness :
    Sane (Doc.obj [("a", Doc.obj [("x", Doc.int 1), ("y", Doc.str "hello")]),
      ("b", Doc.arr [Doc.str "p", Doc.obj [("q", Doc.bool true)],
        Doc.arr [Doc.int 2, Doc.int 3]]),
      ("c", Doc.int (-12)), ("n", Doc.null)]) = true ∧
    isContainer (Doc.obj [("a", Doc.obj [("x", Doc.int 1), ("y", Doc.str "hello")]),
      ("b", Doc.arr [Doc.str "p", Doc.obj [("q", Doc.bool true)],
        Doc.arr [Doc.int 2, Doc.int 3]]),
      ("c", Doc.int (-12)), ("n", Doc.null)]) = true ∧
    yaml_sane_load (yaml_sane_dump
      (Doc.obj [("a", Doc.obj [("x", Doc.int 1), ("y", Doc.str "hello")]),
        ("b", Doc.arr [Doc.str "p", Doc.obj [("q", Doc.bool true)],
          Doc.arr [Doc.int 2, Doc.int 3]]),
        ("c", Doc.int (-12)), ("n", Doc.null)]) false) =
      some (Doc.obj [("a", Doc.obj [("x", Doc.int 1), ("y", Doc.str "hello")]),
        ("b", Doc.arr [Doc.str "p", Doc.obj [("q", Doc.bool true)],
          Doc.arr [Doc.int 2, Doc.int 3]]),
        ("c", Doc.int (-12)), ("n", Doc.null)]) :=
  ⟨rfl, rfl, yaml_round_trip _ rfl rfl⟩

end Codecs
